import Mathlib

/-!
Verification development for the delegated-groups ownership engine.

The definitions below are a shallow embedding of the repository's data model
and operations:

* `DgUser`, `DgManagedGroup`, `DgGroupOwner`, `DgGroupOwnerGroup` and `DB`
  embed the four tables of `database/psql_models.py` (an in-memory list of
  rows per table, with a single autoincrement counter supplying fresh ids).
* `get_or_create_user`, `get_or_create_managed_group`,
  `sync_group_owners_for_delegated_group`, `sync_all_group_owners` embed the
  functions of the same names of `services/dg_services2.py` /
  `services/dg_services.py`.
* `fetchJiraLoop` / `fetchConfLoop` embed the pagination loops of
  `_fetch_jira_group_members` and `_fetch_confluence_group_members` of
  `services/refresh.py`; `backfill_group_owner_rules` embeds the SQL backfill
  of the same file.
* `require_owner_by_email`, `remove_group_owner_api`,
  `delete_delegated_group` embed the corresponding handlers of
  `api/delgroups.py` and `api/deleteGroups.py`.
* `add_data_to_table` embeds the catalog prune of `sched_script.py`.
-/

namespace DelGroups

/-! ### Small list helpers used throughout the proofs -/

theorem find?_append_some {α : Type} {p : α → Bool} {l₁ l₂ : List α} {a : α}
    (h : l₁.find? p = some a) : (l₁ ++ l₂).find? p = some a := by
  induction l₁ with
  | nil => simp [List.find?] at h
  | cons x xs ih =>
    simp only [List.cons_append, List.find?]
    cases hx : p x with
    | true => simpa [List.find?, hx] using h
    | false =>
      rw [List.find?] at h
      simp only [hx] at h ⊢
      exact ih h

theorem find?_append_none {α : Type} {p : α → Bool} {l₁ l₂ : List α}
    (h : l₁.find? p = none) : (l₁ ++ l₂).find? p = l₂.find? p := by
  induction l₁ with
  | nil => simp
  | cons x xs ih =>
    rw [List.find?] at h
    simp only [List.cons_append, List.find?]
    cases hx : p x with
    | true => simp [hx] at h
    | false =>
      simp only [hx] at h ⊢
      exact ih h

theorem filter_all_eq {α : Type} {p : α → Bool} {l : List α}
    (h : ∀ a ∈ l, p a = true) : l.filter p = l := by
  induction l with
  | nil => rfl
  | cons x xs ih =>
    have hx : p x = true := h x (List.mem_cons_self _ _)
    simp only [List.filter, hx]
    rw [ih fun a ha => h a (List.mem_cons_of_mem _ ha)]

theorem filter_none_eq {α : Type} {p : α → Bool} {l : List α}
    (h : ∀ a ∈ l, p a = false) : l.filter p = [] := by
  induction l with
  | nil => rfl
  | cons x xs ih =>
    have hx : p x = false := h x (List.mem_cons_self _ _)
    simp only [List.filter, hx]
    exact ih fun a ha => h a (List.mem_cons_of_mem _ ha)

/-- ASCII lowercasing, modelling Python's `str.lower()` and SQL `lower()` on
the identifiers this system stores (written over the character list so that
it evaluates inside the kernel). -/
def strLower (s : String) : String := ⟨s.data.map Char.toLower⟩

/-! ### Data model (`database/psql_models.py`)

Each structure is one table row; `DB` is the whole store.  Primary keys are
drawn from the single `nextId` counter (in the source each table has its own
autoincrement sequence; a single counter preserves uniqueness within every
table, which is what the proofs use). -/

structure DgUser where
  id : Nat
  username : String
  email : Option String
  lower_username : String
  lower_email : Option String
deriving DecidableEq

structure DgManagedGroup where
  id : Nat
  app : String
  group_name : String
  lower_group_name : String
deriving DecidableEq

structure DgGroupOwner where
  id : Nat
  managed_group_id : Nat
  user_id : Nat
  source_type : String
  via_group_name : Option String
deriving DecidableEq

structure DgGroupOwnerGroup where
  id : Nat
  managed_group_id : Nat
  owning_group_name : String
  lower_owning_group_name : String
deriving DecidableEq

structure DB where
  users : List DgUser
  groups : List DgManagedGroup
  owners : List DgGroupOwner
  ownerGroups : List DgGroupOwnerGroup
  nextId : Nat
deriving DecidableEq

/-- Primary-key well-formedness of the user table: ids are pairwise distinct
and below the autoincrement counter (the `dg_user` primary key). -/
def UsersWF (db : DB) : Prop :=
  (db.users.map DgUser.id).Nodup ∧ ∀ u ∈ db.users, u.id < db.nextId

instance : DecidablePred UsersWF := fun db => by
  unfold UsersWF
  infer_instance

/-! ### Identity store (`get_or_create_user`, `dg_services2.py` lines 25-69) -/

/-- `_normalize_identity`: lowercase both fields; a falsy email (absent or
empty string) normalizes to `None`. -/
def normalizeIdentity (username : String) (email : Option String) :
    String × Option String :=
  (strLower username,
    match email with
    | none => none
    | some e => if e = "" then none else some (strLower e))

/-- The lookup filter of `get_or_create_user`: match on
`(lower_username, lower_email)`, with `IS NULL` for an absent email. -/
def userKeyMatch (lu : String) (le : Option String) (u : DgUser) : Bool :=
  decide (u.lower_username = lu ∧ u.lower_email = le)

/-- `get_or_create_user`: return the existing row for the normalized pair, or
insert a fresh row with the canonical-case values and a fresh id. -/
def get_or_create_user (db : DB) (username : String) (email : Option String) :
    DgUser × DB :=
  let key := normalizeIdentity username email
  match db.users.find? (userKeyMatch key.1 key.2) with
  | some u => (u, db)
  | none =>
      let u : DgUser :=
        { id := db.nextId, username := username, email := email,
          lower_username := key.1, lower_email := key.2 }
      (u, { db with users := db.users ++ [u], nextId := db.nextId + 1 })

/-- The lookup filter of `get_or_create_managed_group`:
match on `(app, lower_group_name)`. -/
def groupKeyMatch (app lgn : String) (g : DgManagedGroup) : Bool :=
  decide (g.app = app ∧ g.lower_group_name = lgn)

/-- `get_or_create_managed_group`: resolve or create the delegated group for
`(app.lower(), group_name.lower())`. -/
def get_or_create_managed_group (db : DB) (app gname : String) :
    DgManagedGroup × DB :=
  let appL := strLower app
  let lgn := strLower gname
  match db.groups.find? (groupKeyMatch appL lgn) with
  | some g => (g, db)
  | none =>
      let g : DgManagedGroup :=
        { id := db.nextId, app := appL, group_name := gname,
          lower_group_name := lgn }
      (g, { db with groups := db.groups ++ [g], nextId := db.nextId + 1 })

/-! Basic lemmas about the resolve-or-create operations. -/

theorem gocu_groups (db : DB) (un : String) (em : Option String) :
    (get_or_create_user db un em).2.groups = db.groups := by
  unfold get_or_create_user
  cases h : db.users.find? (userKeyMatch (normalizeIdentity un em).1
      (normalizeIdentity un em).2) <;> simp [h]

theorem gocu_owners (db : DB) (un : String) (em : Option String) :
    (get_or_create_user db un em).2.owners = db.owners := by
  unfold get_or_create_user
  cases h : db.users.find? (userKeyMatch (normalizeIdentity un em).1
      (normalizeIdentity un em).2) <;> simp [h]

theorem gocu_ownerGroups (db : DB) (un : String) (em : Option String) :
    (get_or_create_user db un em).2.ownerGroups = db.ownerGroups := by
  unfold get_or_create_user
  cases h : db.users.find? (userKeyMatch (normalizeIdentity un em).1
      (normalizeIdentity un em).2) <;> simp [h]

theorem gocu_users_append (db : DB) (un : String) (em : Option String) :
    ∃ t, (get_or_create_user db un em).2.users = db.users ++ t := by
  unfold get_or_create_user
  cases h : db.users.find? (userKeyMatch (normalizeIdentity un em).1
      (normalizeIdentity un em).2) with
  | none =>
      simp only [h]
      exact ⟨_, rfl⟩
  | some u => exact ⟨[], by simp [h]⟩

/-- After `get_or_create_user`, the returned user is the first row matching
the normalized key in the resulting user table. -/
theorem gocu_find (db : DB) (un : String) (em : Option String) :
    (get_or_create_user db un em).2.users.find?
        (userKeyMatch (normalizeIdentity un em).1 (normalizeIdentity un em).2)
      = some (get_or_create_user db un em).1 := by
  unfold get_or_create_user
  cases h : db.users.find? (userKeyMatch (normalizeIdentity un em).1
      (normalizeIdentity un em).2) with
  | some u => simp [h]
  | none =>
      simp only [h]
      rw [find?_append_none h]
      simp [List.find?, userKeyMatch]

/-- The returned user is a member of the resulting user table. -/
theorem gocu_mem (db : DB) (un : String) (em : Option String) :
    (get_or_create_user db un em).1 ∈ (get_or_create_user db un em).2.users := by
  have h := gocu_find db un em
  exact List.mem_of_find?_eq_some h

/-- If the key already resolves, `get_or_create_user` returns that row and
leaves the store untouched. -/
theorem gocu_found {db : DB} {un : String} {em : Option String} {u : DgUser}
    (h : db.users.find? (userKeyMatch (normalizeIdentity un em).1
        (normalizeIdentity un em).2) = some u) :
    get_or_create_user db un em = (u, db) := by
  unfold get_or_create_user
  simp [h]

/-! ### Reconciliation engine
(`sync_group_owners_for_delegated_group`, `dg_services2.py` lines 110-205) -/

/-- Step 2 of the sync: ensure every member exists as a `DgUser` and collect
the desired set of user ids (a python `set`, modelled as a duplicate-free
list in insertion order). -/
def buildDesired (db : DB) :
    List (String × Option String) → List Nat → List Nat × DB
  | [], acc => (acc, db)
  | m :: rest, acc =>
      let r := get_or_create_user db m.1 m.2
      buildDesired r.2 rest (if r.1.id ∈ acc then acc else acc ++ [r.1.id])

/-- The filter of step 3: `DERIVED` (`GROUP_OWNER`) rows of this exact
`(managed_group_id, via_group_name)` pair. -/
def isTripleRow (gid : Nat) (via : String) (r : DgGroupOwner) : Bool :=
  decide (r.managed_group_id = gid ∧ r.source_type = "GROUP_OWNER" ∧
    r.via_group_name = some via)

/-- Step 5's inserts: one fresh `GROUP_OWNER` row per user to add, with ids
drawn from the autoincrement counter. -/
def assignRows (gid : Nat) (via : String) :
    List DgUser → Nat → List DgGroupOwner × Nat
  | [], n => ([], n)
  | u :: rest, n =>
      let r := assignRows gid via rest (n + 1)
      ({ id := n, managed_group_id := gid, user_id := u.id,
          source_type := "GROUP_OWNER", via_group_name := some via } :: r.1,
        r.2)

/-- Result of one sync: the new store plus the number of `GROUP_OWNER` rows
inserted and deleted (the counts the source logs). -/
structure SyncResult where
  db : DB
  added : Nat
  removed : Nat
deriving DecidableEq

/-- Steps 3-6 of the sync, given the resolved group id and desired ids:
load existing rows of the pair, diff, insert the missing rows, delete the
stale rows, all committed as one unit. -/
def syncCore (db : DB) (gid : Nat) (via : String) (desired : List Nat) :
    SyncResult :=
  let existingIds := (db.owners.filter (isTripleRow gid via)).map
    DgGroupOwner.user_id
  let toAdd := desired.filter fun i => decide (i ∉ existingIds)
  let toRemove := existingIds.filter fun i => decide (i ∉ desired)
  let usersToAdd := db.users.filter fun u => decide (u.id ∈ toAdd)
  let ar := assignRows gid via usersToAdd db.nextId
  { db := { db with
      owners := (db.owners.filter fun r =>
          !(isTripleRow gid via r && decide (r.user_id ∈ toRemove))) ++ ar.1,
      nextId := ar.2 },
    added := usersToAdd.length,
    removed := (db.owners.filter fun r =>
      isTripleRow gid via r && decide (r.user_id ∈ toRemove)).length }

/-- `sync_group_owners_for_delegated_group`: reconcile the `GROUP_OWNER`
rows of one (delegated group, owning group) pair against the current member
list. -/
def sync_group_owners_for_delegated_group (db : DB)
    (app delegated_group owning_group_name : String)
    (members : List (String × Option String)) : SyncResult :=
  let appL := strLower app
  let gr := get_or_create_managed_group db appL delegated_group
  let bd := buildDesired gr.2 members []
  syncCore bd.2 gr.1.id owning_group_name bd.1

/-! Effect lemmas for `buildDesired`. -/

theorem buildDesired_groups (members : List (String × Option String)) :
    ∀ (db : DB) (acc : List Nat),
      (buildDesired db members acc).2.groups = db.groups := by
  induction members with
  | nil => intro db acc; rfl
  | cons m rest ih =>
      intro db acc
      unfold buildDesired
      rw [ih]
      exact gocu_groups db m.1 m.2

theorem buildDesired_owners (members : List (String × Option String)) :
    ∀ (db : DB) (acc : List Nat),
      (buildDesired db members acc).2.owners = db.owners := by
  induction members with
  | nil => intro db acc; rfl
  | cons m rest ih =>
      intro db acc
      unfold buildDesired
      rw [ih]
      exact gocu_owners db m.1 m.2

theorem buildDesired_ownerGroups (members : List (String × Option String)) :
    ∀ (db : DB) (acc : List Nat),
      (buildDesired db members acc).2.ownerGroups = db.ownerGroups := by
  induction members with
  | nil => intro db acc; rfl
  | cons m rest ih =>
      intro db acc
      unfold buildDesired
      rw [ih]
      exact gocu_ownerGroups db m.1 m.2

theorem buildDesired_users_append (members : List (String × Option String)) :
    ∀ (db : DB) (acc : List Nat),
      ∃ t, (buildDesired db members acc).2.users = db.users ++ t := by
  induction members with
  | nil => intro db acc; exact ⟨[], by simp [buildDesired]⟩
  | cons m rest ih =>
      intro db acc
      unfold buildDesired
      obtain ⟨t₁, h₁⟩ := gocu_users_append db m.1 m.2
      obtain ⟨t₂, h₂⟩ := ih (get_or_create_user db m.1 m.2).2
        (if (get_or_create_user db m.1 m.2).1.id ∈ acc then acc
          else acc ++ [(get_or_create_user db m.1 m.2).1.id])
      exact ⟨t₁ ++ t₂, by rw [h₂, h₁, List.append_assoc]⟩

/-- Every id in the desired list is either carried over from the accumulator
or is the id of a user present in the resulting table. -/
theorem buildDesired_sub (members : List (String × Option String)) :
    ∀ (db : DB) (acc : List Nat) (a : Nat),
      a ∈ (buildDesired db members acc).1 →
      a ∈ acc ∨ ∃ u ∈ (buildDesired db members acc).2.users, u.id = a := by
  induction members with
  | nil => intro db acc a ha; exact Or.inl ha
  | cons m rest ih =>
      intro db acc a ha
      unfold buildDesired at ha ⊢
      rcases ih _ _ _ ha with hacc | hu
      · by_cases hmem : (get_or_create_user db m.1 m.2).1.id ∈ acc
        · simp only [if_pos hmem] at hacc
          exact Or.inl hacc
        · simp only [if_neg hmem] at hacc
          rcases List.mem_append.mp hacc with h | h
          · exact Or.inl h
          · right
            have hid : a = (get_or_create_user db m.1 m.2).1.id := by
              simpa using h
            obtain ⟨t, ht⟩ := buildDesired_users_append rest
              (get_or_create_user db m.1 m.2).2
              (if (get_or_create_user db m.1 m.2).1.id ∈ acc then acc
                else acc ++ [(get_or_create_user db m.1 m.2).1.id])
            refine ⟨(get_or_create_user db m.1 m.2).1, ?_, hid.symm⟩
            rw [ht]
            exact List.mem_append.mpr (Or.inl (gocu_mem db m.1 m.2))
      · exact Or.inr hu

/-- Re-running `buildDesired` on any store whose user table equals the
post-state's user table returns the same desired ids and leaves the store
untouched (all members now resolve). -/
theorem buildDesired_again (members : List (String × Option String)) :
    ∀ (db db₂ : DB) (acc : List Nat),
      db₂.users = (buildDesired db members acc).2.users →
      buildDesired db₂ members acc = ((buildDesired db members acc).1, db₂) := by
  induction members with
  | nil => intro db db₂ acc _; rfl
  | cons m rest ih =>
      intro db db₂ acc husers
      have hkey := gocu_find db m.1 m.2
      obtain ⟨t, ht⟩ := buildDesired_users_append rest
        (get_or_create_user db m.1 m.2).2
        (if (get_or_create_user db m.1 m.2).1.id ∈ acc then acc
          else acc ++ [(get_or_create_user db m.1 m.2).1.id])
      have hfind : db₂.users.find?
          (userKeyMatch (normalizeIdentity m.1 m.2).1
            (normalizeIdentity m.1 m.2).2)
          = some (get_or_create_user db m.1 m.2).1 := by
        have : (buildDesired (get_or_create_user db m.1 m.2).2 rest
            (if (get_or_create_user db m.1 m.2).1.id ∈ acc then acc
              else acc ++ [(get_or_create_user db m.1 m.2).1.id])).2.users
            = (get_or_create_user db m.1 m.2).2.users ++ t := ht
        rw [show db₂.users = _ from husers]
        unfold buildDesired
        rw [this]
        exact find?_append_some hkey
      have hgo : get_or_create_user db₂ m.1 m.2
          = ((get_or_create_user db m.1 m.2).1, db₂) := gocu_found hfind
      unfold buildDesired
      rw [hgo]
      exact ih (get_or_create_user db m.1 m.2).2 db₂ _
        (by rw [husers]; rfl)

/-! Effect lemmas for `get_or_create_managed_group`, `assignRows` and
`syncCore`. -/

theorem gocmg_find (db : DB) (app gname : String) :
    (get_or_create_managed_group db app gname).2.groups.find?
        (groupKeyMatch (strLower app) (strLower gname))
      = some (get_or_create_managed_group db app gname).1 := by
  unfold get_or_create_managed_group
  cases h : db.groups.find? (groupKeyMatch (strLower app) (strLower gname)) with
  | some g => simp [h]
  | none =>
      simp only [h]
      rw [find?_append_none h]
      simp [List.find?, groupKeyMatch]

theorem gocmg_found {db : DB} {app gname : String} {g : DgManagedGroup}
    (h : db.groups.find? (groupKeyMatch (strLower app) (strLower gname)) = some g) :
    get_or_create_managed_group db app gname = (g, db) := by
  unfold get_or_create_managed_group
  simp [h]

theorem gocmg_users (db : DB) (app gname : String) :
    (get_or_create_managed_group db app gname).2.users = db.users := by
  unfold get_or_create_managed_group
  cases h : db.groups.find? (groupKeyMatch (strLower app) (strLower gname)) <;>
    simp [h]

theorem gocmg_owners (db : DB) (app gname : String) :
    (get_or_create_managed_group db app gname).2.owners = db.owners := by
  unfold get_or_create_managed_group
  cases h : db.groups.find? (groupKeyMatch (strLower app) (strLower gname)) <;>
    simp [h]

theorem gocmg_ownerGroups (db : DB) (app gname : String) :
    (get_or_create_managed_group db app gname).2.ownerGroups
      = db.ownerGroups := by
  unfold get_or_create_managed_group
  cases h : db.groups.find? (groupKeyMatch (strLower app) (strLower gname)) <;>
    simp [h]

theorem assignRows_map (gid : Nat) (via : String) :
    ∀ (us : List DgUser) (n : Nat),
      (assignRows gid via us n).1.map DgGroupOwner.user_id
        = us.map DgUser.id := by
  intro us
  induction us with
  | nil => intro n; rfl
  | cons u rest ih =>
      intro n
      unfold assignRows
      simp only [List.map_cons]
      rw [ih]

theorem assignRows_triple (gid : Nat) (via : String) :
    ∀ (us : List DgUser) (n : Nat),
      ∀ r ∈ (assignRows gid via us n).1, isTripleRow gid via r = true := by
  intro us
  induction us with
  | nil => intro n r hr; simp [assignRows] at hr
  | cons u rest ih =>
      intro n r hr
      unfold assignRows at hr
      rcases List.mem_cons.mp hr with h | h
      · subst h; simp [isTripleRow]
      · exact ih (n + 1) r h

theorem syncCore_users (db : DB) (gid : Nat) (via : String)
    (desired : List Nat) : (syncCore db gid via desired).db.users = db.users :=
  rfl

theorem syncCore_groups (db : DB) (gid : Nat) (via : String)
    (desired : List Nat) :
    (syncCore db gid via desired).db.groups = db.groups :=
  rfl

theorem syncCore_ownerGroups (db : DB) (gid : Nat) (via : String)
    (desired : List Nat) :
    (syncCore db gid via desired).db.ownerGroups = db.ownerGroups :=
  rfl

/-- After `syncCore`, a user id has a `DERIVED` row for the pair iff it is in
the desired set (provided every desired id denotes an existing user, which
`buildDesired` guarantees). -/
theorem syncCore_post_mem (db : DB) (gid : Nat) (via : String)
    (desired : List Nat)
    (hsub : ∀ a ∈ desired, ∃ u ∈ db.users, u.id = a) (a : Nat) :
    (∃ r ∈ (syncCore db gid via desired).db.owners,
        isTripleRow gid via r = true ∧ r.user_id = a) ↔ a ∈ desired := by
  simp only [syncCore]
  constructor
  · rintro ⟨r, hr, htr, rfl⟩
    rcases List.mem_append.mp hr with hkeep | hnew
    · have hmem := (List.mem_filter.mp hkeep).1
      have hcond := (List.mem_filter.mp hkeep).2
      have hEx : r.user_id ∈ (db.owners.filter (isTripleRow gid via)).map
          DgGroupOwner.user_id :=
        List.mem_map.mpr ⟨r, List.mem_filter.mpr ⟨hmem, htr⟩, rfl⟩
      rw [htr] at hcond
      simp only [Bool.true_and, Bool.not_eq_true', decide_eq_false_iff_not]
        at hcond
      by_contra hnot
      exact hcond (List.mem_filter.mpr ⟨hEx, by simpa using hnot⟩)
    · have : r.user_id ∈ (assignRows gid via
          (db.users.filter fun u => decide (u.id ∈ desired.filter fun i =>
            decide (i ∉ (db.owners.filter (isTripleRow gid via)).map
              DgGroupOwner.user_id))) db.nextId).1.map DgGroupOwner.user_id :=
        List.mem_map.mpr ⟨r, hnew, rfl⟩
      rw [assignRows_map] at this
      obtain ⟨u, hu, hid⟩ := List.mem_map.mp this
      have := (List.mem_filter.mp hu).2
      simp only [decide_eq_true_eq] at this
      rw [hid] at this
      exact (List.mem_filter.mp this).1
  · intro ha
    by_cases hE : a ∈ (db.owners.filter (isTripleRow gid via)).map
        DgGroupOwner.user_id
    · obtain ⟨r, hr, hra⟩ := List.mem_map.mp hE
      have hmem := (List.mem_filter.mp hr).1
      have htr := (List.mem_filter.mp hr).2
      refine ⟨r, List.mem_append.mpr (Or.inl ?_), htr, hra⟩
      refine List.mem_filter.mpr ⟨hmem, ?_⟩
      have hnr : r.user_id ∉ ((db.owners.filter (isTripleRow gid via)).map
          DgGroupOwner.user_id).filter fun i => decide (i ∉ desired) := by
        intro hin
        have := (List.mem_filter.mp hin).2
        rw [hra] at this
        simp [ha] at this
      rw [htr]
      simp only [Bool.true_and, Bool.not_eq_true', decide_eq_false_iff_not]
      exact hnr
    · have hadd : a ∈ desired.filter fun i =>
          decide (i ∉ (db.owners.filter (isTripleRow gid via)).map
            DgGroupOwner.user_id) :=
        List.mem_filter.mpr ⟨ha, by simpa using hE⟩
      obtain ⟨u, hu, hua⟩ := hsub a ha
      have huta : u ∈ db.users.filter fun u => decide (u.id ∈ desired.filter
          fun i => decide (i ∉ (db.owners.filter (isTripleRow gid via)).map
            DgGroupOwner.user_id)) :=
        List.mem_filter.mpr ⟨hu, by rw [hua]; simpa using hadd⟩
      have : a ∈ (assignRows gid via (db.users.filter fun u =>
          decide (u.id ∈ desired.filter fun i =>
            decide (i ∉ (db.owners.filter (isTripleRow gid via)).map
              DgGroupOwner.user_id))) db.nextId).1.map DgGroupOwner.user_id := by
        rw [assignRows_map]
        exact List.mem_map.mpr ⟨u, huta, hua⟩
      obtain ⟨r, hrnew, hra⟩ := List.mem_map.mp this
      exact ⟨r, List.mem_append.mpr (Or.inr hrnew),
        assignRows_triple _ _ _ _ r hrnew, hra⟩

/-- If the desired set already coincides with the existing row set, the sync
performs no writes at all. -/
theorem syncCore_noop (db : DB) (gid : Nat) (via : String)
    (desired : List Nat)
    (h : ∀ a, a ∈ desired ↔ a ∈ (db.owners.filter (isTripleRow gid via)).map
      DgGroupOwner.user_id) :
    syncCore db gid via desired = ⟨db, 0, 0⟩ := by
  simp only [syncCore]
  have hta : (desired.filter fun i =>
      decide (i ∉ (db.owners.filter (isTripleRow gid via)).map
        DgGroupOwner.user_id)) = [] :=
    filter_none_eq fun a ha => decide_eq_false (not_not_intro ((h a).mp ha))
  have htr : (((db.owners.filter (isTripleRow gid via)).map
      DgGroupOwner.user_id).filter fun i => decide (i ∉ desired)) = [] :=
    filter_none_eq fun a ha => decide_eq_false (not_not_intro ((h a).mpr ha))
  rw [hta, htr]
  have huta : (db.users.filter fun u => decide (u.id ∈ ([] : List Nat))) = [] :=
    filter_none_eq fun u _ => by simp
  rw [huta]
  have hkeep : (db.owners.filter fun r =>
      !(isTripleRow gid via r && decide (r.user_id ∈ ([] : List Nat))))
      = db.owners :=
    filter_all_eq fun r _ => by simp
  have hrem : (db.owners.filter fun r =>
      isTripleRow gid via r && decide (r.user_id ∈ ([] : List Nat))) = [] :=
    filter_none_eq fun r _ => by simp
  rw [hkeep, hrem]
  simp [assignRows]

theorem mem_ids_iff (l : List DgGroupOwner) (gid : Nat) (via : String)
    (a : Nat) :
    a ∈ (l.filter (isTripleRow gid via)).map DgGroupOwner.user_id ↔
      ∃ r ∈ l, isTripleRow gid via r = true ∧ r.user_id = a := by
  constructor
  · intro h
    obtain ⟨r, hr, hra⟩ := List.mem_map.mp h
    exact ⟨r, (List.mem_filter.mp hr).1, (List.mem_filter.mp hr).2, hra⟩
  · rintro ⟨r, hmem, htr, hra⟩
    exact List.mem_map.mpr ⟨r, List.mem_filter.mpr ⟨hmem, htr⟩, hra⟩

theorem sync_unfold (db : DB) (app dg og : String)
    (members : List (String × Option String)) :
    sync_group_owners_for_delegated_group db app dg og members
      = syncCore
          (buildDesired (get_or_create_managed_group db (strLower app) dg).2
            members []).2
          (get_or_create_managed_group db (strLower app) dg).1.id og
          (buildDesired (get_or_create_managed_group db (strLower app) dg).2
            members []).1 := rfl

/-- Claim C1: reconciliation is idempotent.  Running
`sync_group_owners_for_delegated_group` a second time with the same member
list performs zero grant insertions and zero grant deletions, and in fact
leaves the store exactly as the first run left it. -/
theorem sync_idempotent_single (db : DB) (app dg og : String)
    (members : List (String × Option String)) :
    sync_group_owners_for_delegated_group
        (sync_group_owners_for_delegated_group db app dg og members).db
        app dg og members
      = ⟨(sync_group_owners_for_delegated_group db app dg og members).db,
          0, 0⟩ := by
  have hgroups : (sync_group_owners_for_delegated_group db app dg og
      members).db.groups
      = (get_or_create_managed_group db (strLower app) dg).2.groups := by
    rw [sync_unfold, syncCore_groups, buildDesired_groups]
  have husers : (sync_group_owners_for_delegated_group db app dg og
      members).db.users
      = (buildDesired (get_or_create_managed_group db (strLower app) dg).2
          members []).2.users := by
    rw [sync_unfold, syncCore_users]
  have hgr : get_or_create_managed_group
      (sync_group_owners_for_delegated_group db app dg og members).db
      (strLower app) dg
      = ((get_or_create_managed_group db (strLower app) dg).1,
          (sync_group_owners_for_delegated_group db app dg og members).db) := by
    apply gocmg_found
    rw [hgroups]
    exact gocmg_find db (strLower app) dg
  have hbd : buildDesired
      (sync_group_owners_for_delegated_group db app dg og members).db
      members []
      = ((buildDesired (get_or_create_managed_group db (strLower app) dg).2
          members []).1,
          (sync_group_owners_for_delegated_group db app dg og members).db) :=
    buildDesired_again members _ _ [] husers
  have hsub : ∀ a ∈ (buildDesired
      (get_or_create_managed_group db (strLower app) dg).2 members []).1,
      ∃ u ∈ (buildDesired (get_or_create_managed_group db (strLower app) dg).2
        members []).2.users, u.id = a := by
    intro a ha
    rcases buildDesired_sub members _ [] a ha with h | h
    · simp at h
    · exact h
  rw [sync_unfold (sync_group_owners_for_delegated_group db app dg og
    members).db app dg og members]
  rw [hgr, hbd]
  apply syncCore_noop
  intro a
  rw [mem_ids_iff]
  have := syncCore_post_mem
    (buildDesired (get_or_create_managed_group db (strLower app) dg).2
      members []).2
    (get_or_create_managed_group db (strLower app) dg).1.id og
    (buildDesired (get_or_create_managed_group db (strLower app) dg).2
      members []).1 hsub a
  rw [sync_unfold db app dg og members]
  exact this.symm

/-! Preservation of the user-table primary-key invariant. -/

theorem wf_gocu (db : DB) (un : String) (em : Option String)
    (h : UsersWF db) : UsersWF (get_or_create_user db un em).2 := by
  unfold get_or_create_user
  cases hf : db.users.find? (userKeyMatch (normalizeIdentity un em).1
      (normalizeIdentity un em).2) with
  | some u => simp only [hf]; exact h
  | none =>
      simp only [hf]
      obtain ⟨hnd, hlt⟩ := h
      constructor
      · rw [List.map_append]
        rw [List.nodup_append]
        refine ⟨hnd, List.nodup_singleton _, ?_⟩
        intro a ha hb
        simp only [List.map_cons, List.map_nil, List.mem_singleton] at hb
        obtain ⟨u, hu, hua⟩ := List.mem_map.mp ha
        exact absurd (hua ▸ hlt u hu) (by rw [hb]; exact Nat.lt_irrefl _)
      · intro u hu
        rcases List.mem_append.mp hu with h | h
        · exact Nat.lt_succ_of_lt (hlt u h)
        · simp only [List.mem_singleton] at h
          rw [h]
          exact Nat.lt_succ_self _

theorem wf_gocmg (db : DB) (app gname : String)
    (h : UsersWF db) : UsersWF (get_or_create_managed_group db app gname).2 := by
  unfold get_or_create_managed_group
  cases hf : db.groups.find? (groupKeyMatch (strLower app) (strLower gname)) with
  | some g => simp only [hf]; exact h
  | none =>
      simp only [hf]
      obtain ⟨hnd, hlt⟩ := h
      exact ⟨hnd, fun u hu => Nat.lt_succ_of_lt (hlt u hu)⟩

theorem wf_buildDesired (members : List (String × Option String)) :
    ∀ (db : DB) (acc : List Nat), UsersWF db →
      UsersWF (buildDesired db members acc).2 := by
  induction members with
  | nil => intro db acc h; exact h
  | cons m rest ih =>
      intro db acc h
      exact ih _ _ (wf_gocu db m.1 m.2 h)

/-- Counting helper: with pairwise-distinct ids, exactly one user row carries
a given id that is known to occur. -/
theorem filter_id_unique {l : List DgUser}
    (h : (l.map DgUser.id).Nodup) {a : Nat} (hex : ∃ u ∈ l, u.id = a) :
    (l.filter fun u => decide (u.id = a)).length = 1 := by
  induction l with
  | nil => simp at hex
  | cons u rest ih =>
      rw [List.map_cons, List.nodup_cons] at h
      by_cases hu : u.id = a
      · have hrest : (rest.filter fun u => decide (u.id = a)) = [] := by
          apply filter_none_eq
          intro v hv
          have : v.id ≠ a := by
            intro hva
            exact h.1 (List.mem_map.mpr ⟨v, hv, by rw [hva, hu]⟩)
          simp [this]
        simp [List.filter, hu, hrest]
      · obtain ⟨v, hv, hva⟩ := hex
        rcases List.mem_cons.mp hv with rfl | hv
        · exact absurd hva hu
        · have := ih h.2 ⟨v, hv, hva⟩
          simp [List.filter, hu, this]

theorem assignRows_filter_count (gid : Nat) (via : String) (a : Nat) :
    ∀ (us : List DgUser) (n : Nat),
      ((assignRows gid via us n).1.filter fun r =>
          isTripleRow gid via r && decide (r.user_id = a)).length
        = (us.filter fun u => decide (u.id = a)).length := by
  intro us
  induction us with
  | nil => intro n; rfl
  | cons u rest ih =>
      intro n
      have htr : isTripleRow gid via
          { id := n, managed_group_id := gid, user_id := u.id,
            source_type := "GROUP_OWNER", via_group_name := some via }
          = true := by
        simp [isTripleRow]
      unfold assignRows
      by_cases hu : u.id = a
      · subst hu
        simp [List.filter_cons, htr, ih (n + 1)]
      · simp [List.filter_cons, htr, hu, ih (n + 1)]

/-- The exact set-diff behaviour of `syncCore`, over an arbitrary starting
store whose user ids are pairwise distinct and whose desired ids all denote
existing users. -/
theorem syncCore_exact (db : DB) (gid : Nat) (via : String)
    (desired : List Nat)
    (hnd : (db.users.map DgUser.id).Nodup)
    (hsub : ∀ a ∈ desired, ∃ u ∈ db.users, u.id = a) :
    (∀ r ∈ db.owners, isTripleRow gid via r = true → r.user_id ∈ desired →
        r ∈ (syncCore db gid via desired).db.owners)
    ∧ (∀ r ∈ db.owners, isTripleRow gid via r = true → r.user_id ∉ desired →
        r ∉ (syncCore db gid via desired).db.owners)
    ∧ (∀ a ∈ desired,
        a ∉ (db.owners.filter (isTripleRow gid via)).map DgGroupOwner.user_id →
        ((syncCore db gid via desired).db.owners.filter fun r =>
          isTripleRow gid via r && decide (r.user_id = a)).length = 1)
    ∧ (∀ a ∈ desired,
        a ∈ (db.owners.filter (isTripleRow gid via)).map DgGroupOwner.user_id →
        (syncCore db gid via desired).db.owners.filter (fun r =>
          isTripleRow gid via r && decide (r.user_id = a))
          = db.owners.filter (fun r =>
            isTripleRow gid via r && decide (r.user_id = a))) := by
  simp only [syncCore]
  refine ⟨?_, ?_, ?_, ?_⟩
  · intro r hr htr hdes
    refine List.mem_append.mpr (Or.inl (List.mem_filter.mpr ⟨hr, ?_⟩))
    rw [htr]
    simp only [Bool.true_and, Bool.not_eq_true', decide_eq_false_iff_not]
    intro hin
    have := (List.mem_filter.mp hin).2
    simp only [decide_eq_true_eq] at this
    exact this hdes
  · intro r hr htr hnd2 hmem
    rcases List.mem_append.mp hmem with hkeep | hnew
    · have hc := (List.mem_filter.mp hkeep).2
      rw [htr] at hc
      simp only [Bool.true_and, Bool.not_eq_true', decide_eq_false_iff_not]
        at hc
      exact hc (List.mem_filter.mpr
        ⟨List.mem_map.mpr ⟨r, List.mem_filter.mpr ⟨hr, htr⟩, rfl⟩,
          by simpa using hnd2⟩)
    · have : r.user_id ∈ (assignRows gid via _ db.nextId).1.map
          DgGroupOwner.user_id := List.mem_map.mpr ⟨r, hnew, rfl⟩
      rw [assignRows_map] at this
      obtain ⟨u, hu, hua⟩ := List.mem_map.mp this
      have hta := (List.mem_filter.mp hu).2
      simp only [decide_eq_true_eq] at hta
      rw [hua] at hta
      have hnotex := (List.mem_filter.mp hta).2
      have hin : r.user_id ∈ (db.owners.filter (isTripleRow gid via)).map
          DgGroupOwner.user_id :=
        List.mem_map.mpr ⟨r, List.mem_filter.mpr ⟨hr, htr⟩, rfl⟩
      simp only [decide_eq_true_eq] at hnotex
      exact hnotex hin
  · intro a ha hnotex
    rw [List.filter_append, List.length_append]
    have h0 : ((db.owners.filter fun r =>
        !(isTripleRow gid via r && decide (r.user_id ∈
          ((db.owners.filter (isTripleRow gid via)).map
            DgGroupOwner.user_id).filter fun i =>
              decide (i ∉ desired)))).filter fun r =>
        isTripleRow gid via r && decide (r.user_id = a)) = [] := by
      apply filter_none_eq
      intro r hrk
      cases htr : isTripleRow gid via r with
      | false => simp [htr]
      | true =>
          by_cases hua : r.user_id = a
          · exact absurd (List.mem_map.mpr ⟨r, List.mem_filter.mpr
              ⟨(List.mem_filter.mp hrk).1, htr⟩, hua⟩) hnotex
          · simp [htr, hua]
    rw [h0]
    simp only [List.length_nil, Nat.zero_add]
    rw [assignRows_filter_count]
    apply filter_id_unique
    · exact ((List.filter_sublist _).map DgUser.id).nodup hnd
    · obtain ⟨u, hu, hua⟩ := hsub a ha
      refine ⟨u, List.mem_filter.mpr ⟨hu, ?_⟩, hua⟩
      simp only [decide_eq_true_eq]
      rw [hua]
      exact List.mem_filter.mpr ⟨ha, by simpa using hnotex⟩
  · intro a ha hex
    rw [List.filter_append]
    have hnew0 : ((assignRows gid via (db.users.filter fun u =>
        decide (u.id ∈ desired.filter fun i =>
          decide (i ∉ (db.owners.filter (isTripleRow gid via)).map
            DgGroupOwner.user_id))) db.nextId).1.filter fun r =>
        isTripleRow gid via r && decide (r.user_id = a)) = [] := by
      apply filter_none_eq
      intro r hrn
      by_cases hua : r.user_id = a
      · exfalso
        have : r.user_id ∈ (assignRows gid via _ db.nextId).1.map
            DgGroupOwner.user_id := List.mem_map.mpr ⟨r, hrn, rfl⟩
        rw [assignRows_map] at this
        obtain ⟨u, hu, huid⟩ := List.mem_map.mp this
        have hta := (List.mem_filter.mp hu).2
        simp only [decide_eq_true_eq] at hta
        rw [huid, hua] at hta
        have := (List.mem_filter.mp hta).2
        simp only [decide_eq_true_eq] at this
        exact this hex
      · simp [hua]
    rw [hnew0, List.append_nil]
    rw [List.filter_filter]
    apply List.filter_congr
    intro r hr
    cases hpred : (isTripleRow gid via r && decide (r.user_id = a)) with
    | false => simp [hpred]
    | true =>
        have htr : isTripleRow gid via r = true := by
          cases h : isTripleRow gid via r with
          | true => rfl
          | false => rw [h] at hpred; simp at hpred
        have hua : r.user_id = a := by
          rw [htr] at hpred
          simpa using hpred
        have hkeep : (!(isTripleRow gid via r && decide (r.user_id ∈
            ((db.owners.filter (isTripleRow gid via)).map
              DgGroupOwner.user_id).filter fun i =>
                decide (i ∉ desired)))) = true := by
          rw [htr]
          simp only [Bool.true_and, Bool.not_eq_true', decide_eq_false_iff_not]
          rw [hua]
          intro hin
          have h2 := (List.mem_filter.mp hin).2
          simp only [decide_eq_true_eq] at h2
          exact h2 ha
        simp [hpred, hkeep]

/-- The conclusion of claim C2 for a store `db` and one reconciliation call:
rows of still-desired members are preserved verbatim, rows of dropped
members are deleted, and each newly desired member gains exactly one row. -/
def C2Post (db : DB) (app dg og : String)
    (members : List (String × Option String)) : Prop :=
  (∀ r ∈ db.owners,
      isTripleRow (get_or_create_managed_group db (strLower app) dg).1.id og r
        = true →
      r.user_id ∈ (buildDesired
        (get_or_create_managed_group db (strLower app) dg).2 members []).1 →
      r ∈ (sync_group_owners_for_delegated_group db app dg og
        members).db.owners)
  ∧ (∀ r ∈ db.owners,
      isTripleRow (get_or_create_managed_group db (strLower app) dg).1.id og r
        = true →
      r.user_id ∉ (buildDesired
        (get_or_create_managed_group db (strLower app) dg).2 members []).1 →
      r ∉ (sync_group_owners_for_delegated_group db app dg og
        members).db.owners)
  ∧ (∀ a ∈ (buildDesired
        (get_or_create_managed_group db (strLower app) dg).2 members []).1,
      a ∉ (db.owners.filter (isTripleRow
        (get_or_create_managed_group db (strLower app) dg).1.id og)).map
          DgGroupOwner.user_id →
      ((sync_group_owners_for_delegated_group db app dg og
          members).db.owners.filter fun r =>
        isTripleRow (get_or_create_managed_group db (strLower app) dg).1.id og
          r && decide (r.user_id = a)).length = 1)
  ∧ (∀ a ∈ (buildDesired
        (get_or_create_managed_group db (strLower app) dg).2 members []).1,
      a ∈ (db.owners.filter (isTripleRow
        (get_or_create_managed_group db (strLower app) dg).1.id og)).map
          DgGroupOwner.user_id →
      (sync_group_owners_for_delegated_group db app dg og
          members).db.owners.filter (fun r =>
        isTripleRow (get_or_create_managed_group db (strLower app) dg).1.id og
          r && decide (r.user_id = a))
        = db.owners.filter (fun r =>
          isTripleRow (get_or_create_managed_group db (strLower app) dg).1.id
            og r && decide (r.user_id = a)))

/-- Claim C2: the per-triple set-diff is exact (one insertion per member of
`desired − existing`, deletion of exactly `existing − desired`, members in
both sets keep their row verbatim). -/
theorem claim_C2_set_diff_exact (db : DB) (app dg og : String)
    (members : List (String × Option String)) (hwf : UsersWF db) :
    C2Post db app dg og members := by
  have hO : (buildDesired (get_or_create_managed_group db (strLower app) dg).2
      members []).2.owners = db.owners := by
    rw [buildDesired_owners, gocmg_owners]
  have hwf2 : UsersWF (buildDesired
      (get_or_create_managed_group db (strLower app) dg).2 members []).2 :=
    wf_buildDesired members _ [] (wf_gocmg db (strLower app) dg hwf)
  have hsub : ∀ a ∈ (buildDesired
      (get_or_create_managed_group db (strLower app) dg).2 members []).1,
      ∃ u ∈ (buildDesired (get_or_create_managed_group db (strLower app) dg).2
        members []).2.users, u.id = a := by
    intro a ha
    rcases buildDesired_sub members _ [] a ha with h | h
    · simp at h
    · exact h
  have hmain := syncCore_exact
    (buildDesired (get_or_create_managed_group db (strLower app) dg).2
      members []).2
    (get_or_create_managed_group db (strLower app) dg).1.id og
    (buildDesired (get_or_create_managed_group db (strLower app) dg).2
      members []).1 hwf2.1 hsub
  rw [hO] at hmain
  have hse : sync_group_owners_for_delegated_group db app dg og members
      = syncCore
          (buildDesired (get_or_create_managed_group db (strLower app) dg).2
            members []).2
          (get_or_create_managed_group db (strLower app) dg).1.id og
          (buildDesired (get_or_create_managed_group db (strLower app) dg).2
            members []).1 := sync_unfold db app dg og members
  unfold C2Post
  rw [hse]
  exact hmain

/-- Frame behaviour of `syncCore`: rows outside the reconciled pair are kept
verbatim, and every row the sync creates belongs to the pair. -/
theorem syncCore_frame (db : DB) (gid : Nat) (via : String)
    (desired : List Nat) :
    ((syncCore db gid via desired).db.owners.filter fun r =>
        !(isTripleRow gid via r))
      = db.owners.filter (fun r => !(isTripleRow gid via r))
    ∧ ∀ r ∈ (syncCore db gid via desired).db.owners, r ∉ db.owners →
        isTripleRow gid via r = true := by
  simp only [syncCore]
  constructor
  · rw [List.filter_append]
    have hnew : ((assignRows gid via (db.users.filter fun u =>
        decide (u.id ∈ desired.filter fun i =>
          decide (i ∉ (db.owners.filter (isTripleRow gid via)).map
            DgGroupOwner.user_id))) db.nextId).1.filter fun r =>
        !(isTripleRow gid via r)) = [] := by
      apply filter_none_eq
      intro r hr
      rw [assignRows_triple gid via _ db.nextId r hr]
      rfl
    rw [hnew, List.append_nil, List.filter_filter]
    apply List.filter_congr
    intro r hr
    cases htr : isTripleRow gid via r with
    | true => simp [htr]
    | false => simp [htr]
  · intro r hmem hnot
    rcases List.mem_append.mp hmem with hkeep | hnew
    · exact absurd (List.mem_filter.mp hkeep).1 hnot
    · exact assignRows_triple _ _ _ _ r hnew

/-- Claim C3: reconciling one (delegated group, owning group) pair never
modifies `USER_OWNER` (`DIRECT`) rows and never modifies `GROUP_OWNER`
(`DERIVED`) rows of a different owning-group name — the sub-list of all rows
outside the pair is identical before and after, and every freshly inserted
row belongs to the reconciled pair. -/
theorem claim_C3_frame (db : DB) (app dg og : String)
    (members : List (String × Option String)) :
    ((sync_group_owners_for_delegated_group db app dg og
        members).db.owners.filter fun r =>
        !(isTripleRow (get_or_create_managed_group db (strLower app) dg).1.id
          og r))
      = db.owners.filter (fun r =>
          !(isTripleRow (get_or_create_managed_group db (strLower app)
            dg).1.id og r))
    ∧ ∀ r ∈ (sync_group_owners_for_delegated_group db app dg og
        members).db.owners,
        r ∉ db.owners →
        isTripleRow (get_or_create_managed_group db (strLower app) dg).1.id og
          r = true := by
  have hO : (buildDesired (get_or_create_managed_group db (strLower app) dg).2
      members []).2.owners = db.owners := by
    rw [buildDesired_owners, gocmg_owners]
  have h := syncCore_frame
    (buildDesired (get_or_create_managed_group db (strLower app) dg).2
      members []).2
    (get_or_create_managed_group db (strLower app) dg).1.id og
    (buildDesired (get_or_create_managed_group db (strLower app) dg).2
      members []).1
  rw [hO] at h
  rw [sync_unfold]
  exact h

/-! Concrete data for the spec's `{B, C} → {C, D}` scenario, used as the C2
witness: delegated group `team` in `jira`, owned via owning group `x`, with
existing derived rows for users `b` and `c`, reconciled against the member
list `[c, d]`. -/

def appJira : String := "jira"

def dgTeam : String := "team"

def ogX : String := "x"

def userB : DgUser :=
  { id := 0, username := "b", email := none,
    lower_username := "b", lower_email := none }

def userC : DgUser :=
  { id := 1, username := "c", email := none,
    lower_username := "c", lower_email := none }

def grpTeam : DgManagedGroup :=
  { id := 2, app := "jira", group_name := "team", lower_group_name := "team" }

def rowB : DgGroupOwner :=
  { id := 3, managed_group_id := 2, user_id := 0,
    source_type := "GROUP_OWNER", via_group_name := some "x" }

def rowC : DgGroupOwner :=
  { id := 4, managed_group_id := 2, user_id := 1,
    source_type := "GROUP_OWNER", via_group_name := some "x" }

def dbC2 : DB :=
  { users := [userB, userC], groups := [grpTeam], owners := [rowB, rowC],
    ownerGroups := [], nextId := 5 }

def membersCD : List (String × Option String) := [("c", none), ("d", none)]

/-- Witness for claim C2: the well-formedness hypothesis holds on the
`{B, C} → {C, D}` store and the theorem applies to it. -/
theorem claim_C2_witness : UsersWF dbC2 ∧ C2Post dbC2 appJira dgTeam ogX
    membersCD :=
  ⟨by decide,
    claim_C2_set_diff_exact dbC2 appJira dgTeam ogX membersCD (by decide)⟩

/-! ### Reconcile-all run (`sync_all_group_owners`, `dg_services2.py` lines
208-289) and the rule backfill (`refresh.py` lines 40-66) -/

/-- Step 1 of `sync_all_group_owners`: the distinct
`(app, delegated_group, via_group_name)` triples, enumerated by joining
`dg_group_owner` (the expanded grant rows, `source_type = 'GROUP_OWNER'`,
`via_group_name` not null) with `dg_managed_group` — NOT by reading the
`dg_group_owner_group` configuration table. -/
def enumTriples (db : DB) : List (String × String × String) :=
  (db.owners.filterMap fun r =>
    match r.via_group_name with
    | none => none
    | some v =>
        if r.source_type = "GROUP_OWNER" then
          (db.groups.find? fun g => decide (g.id = r.managed_group_id)).map
            fun g => (g.app, g.group_name, v)
        else none).dedup

/-- The loop body of `sync_all_group_owners`: skip a falsy
`via_group_name`, otherwise reconcile the triple and accumulate the write
counts. -/
def syncAllStep (fetch : String → String → List (String × Option String))
    (acc : DB × Nat × Nat) (t : String × String × String) :
    DB × Nat × Nat :=
  if t.2.2 = "" then acc
  else
    let r := sync_group_owners_for_delegated_group acc.1 t.1 t.2.1 t.2.2
      (fetch t.1 t.2.2)
    (r.db, acc.2.1 + r.added, acc.2.2 + r.removed)

/-- `sync_all_group_owners`: reconcile every enumerated triple in turn,
skipping falsy `via_group_name` values.  `fetch` is the injected
`fetch_members_for_group`; because it is a pure function here, the source's
run-scoped member-list cache is semantically transparent and is omitted.
Returns the final store plus total rows added and removed. -/
def sync_all_group_owners (db : DB)
    (fetch : String → String → List (String × Option String)) :
    DB × Nat × Nat :=
  (enumTriples db).foldl (syncAllStep fetch) (db, 0, 0)

/-- `backfill_group_owner_rules`: insert into `dg_group_owner_group` the
distinct `(managed_group_id, via_group_name)` pairs found among the expanded
`GROUP_OWNER` grant rows, skipping pairs already present
(`ON CONFLICT DO NOTHING`).  Note the data flow: grants → rules, never the
other way around. -/
def backfill_group_owner_rules (db : DB) : DB :=
  (db.owners.filterMap fun r =>
      if r.source_type = "GROUP_OWNER" then
        r.via_group_name.map fun v => (r.managed_group_id, v)
      else none).foldl
    (fun db c =>
      if db.ownerGroups.any fun og => decide (og.managed_group_id = c.1 ∧
          og.lower_owning_group_name = strLower c.2) then db
      else { db with
        ownerGroups := db.ownerGroups ++
          [{ id := db.nextId, managed_group_id := c.1,
              owning_group_name := c.2,
              lower_owning_group_name := strLower c.2 }],
        nextId := db.nextId + 1 })
    db

/-! ### Directory-gateway pagination loops (`refresh.py` lines 108-208)

The `while True` loops are modelled with an explicit fuel argument counting
loop iterations: `some members` means the loop exited (returning the members
collected so far), `none` means the loop was still running after `fuel`
iterations.  The source has no such bound — which is exactly what claim C10
is about. -/

/-- One page of the Jira `group/member` endpoint: HTTP status, the `values`
array as `(name?, emailAddress?)` pairs, and the `isLast` flag. -/
structure JiraPage where
  status : Nat
  values : List (Option String × Option String)
  isLast : Bool

/-- Member extraction of the Jira loop body: keep entries with a truthy
`name`. -/
def jiraExtract (values : List (Option String × Option String)) :
    List (String × Option String) :=
  values.filterMap fun v =>
    match v.1 with
    | none => none
    | some name => if name = "" then none else some (name, v.2)

/-- The pagination loop of `_fetch_jira_group_members`: on a non-200 status
log and break (returning the partial list); otherwise append the page's
members and continue unless `isLast`. -/
def fetchJiraLoop (pages : Nat → JiraPage) :
    Nat → Nat → List (String × Option String) →
      Option (List (String × Option String))
  | 0, _, _ => none
  | fuel + 1, startAt, acc =>
      let p := pages startAt
      if p.status ≠ 200 then some acc
      else
        let acc2 := acc ++ jiraExtract p.values
        if p.isLast then some acc2
        else fetchJiraLoop pages fuel (startAt + 50) acc2

def fetchJiraGroupMembers (pages : Nat → JiraPage) (fuel : Nat) :
    Option (List (String × Option String)) :=
  fetchJiraLoop pages fuel 0 []

/-- One page of the Confluence `group/{g}/member` endpoint. -/
structure ConfPage where
  status : Nat
  results : List (Option String)

/-- Member extraction of the Confluence loop body: keep entries with a
truthy `username`, attaching the email found in the run's email map. -/
def confExtract (emailMap : String → Option String)
    (results : List (Option String)) : List (String × Option String) :=
  results.filterMap fun v =>
    match v with
    | none => none
    | some un => if un = "" then none else some (un, emailMap (strLower un))

/-- The pagination loop of `_fetch_confluence_group_members`: break on a
non-200 status or on a short page (`len(results) < limit` with
`limit = 200`). -/
def fetchConfLoop (pages : Nat → ConfPage)
    (emailMap : String → Option String) :
    Nat → Nat → List (String × Option String) →
      Option (List (String × Option String))
  | 0, _, _ => none
  | fuel + 1, start, acc =>
      let p := pages start
      if p.status ≠ 200 then some acc
      else
        let acc2 := acc ++ confExtract emailMap p.results
        if p.results.length < 200 then some acc2
        else fetchConfLoop pages emailMap fuel (start + 200) acc2

def fetchConfGroupMembers (pages : Nat → ConfPage)
    (emailMap : String → Option String) (fuel : Nat) :
    Option (List (String × Option String)) :=
  fetchConfLoop pages emailMap fuel 0 []

/-- A pathological Jira upstream: every page is HTTP 200, empty, and never
signals a last page. -/
def jiraNeverLast : Nat → JiraPage :=
  fun _ => { status := 200, values := [], isLast := false }

/-- A pathological Confluence upstream: every page is HTTP 200 and exactly
full (200 entries), so the short-page exit never fires. -/
def confAlwaysFull : Nat → ConfPage :=
  fun _ => { status := 200, results := List.replicate 200 none }

theorem fetchJiraLoop_neverLast :
    ∀ (fuel startAt : Nat) (acc : List (String × Option String)),
      fetchJiraLoop jiraNeverLast fuel startAt acc = none := by
  intro fuel
  induction fuel with
  | zero => intro startAt acc; rfl
  | succ n ih =>
      intro startAt acc
      unfold fetchJiraLoop
      simp only [jiraNeverLast, ne_eq, not_true_eq_false, if_false,
        Bool.false_eq_true, jiraExtract]
      simp [ih]

theorem fetchConfLoop_alwaysFull :
    ∀ (fuel start : Nat) (acc : List (String × Option String)),
      fetchConfLoop confAlwaysFull (fun _ => none) fuel start acc = none := by
  intro fuel
  induction fuel with
  | zero => intro start acc; rfl
  | succ n ih =>
      intro start acc
      unfold fetchConfLoop
      simp only [confAlwaysFull, ne_eq, not_true_eq_false, if_false,
        List.length_replicate]
      simp [ih]

/-- Claim C10 (code side): the member-listing pagination loops carry no hard
cap on page iterations — on a pathological upstream that never signals a
last page (Jira) or always returns exactly full pages (Confluence), the
loops never terminate: no iteration bound whatsoever makes them return. -/
theorem claim_C10_pagination_unbounded :
    (∀ fuel, fetchJiraGroupMembers jiraNeverLast fuel = none)
    ∧ (∀ fuel, fetchConfGroupMembers confAlwaysFull (fun _ => none) fuel
        = none) :=
  ⟨fun fuel => fetchJiraLoop_neverLast fuel 0 [],
    fun fuel => fetchConfLoop_alwaysFull fuel 0 []⟩

/-! Concrete stores for claims C7 and C4. -/

def grpG7 : DgManagedGroup :=
  { id := 0, app := "jira", group_name := "g", lower_group_name := "g" }

def ruleOG7 : DgGroupOwnerGroup :=
  { id := 1, managed_group_id := 0, owning_group_name := "og",
    lower_owning_group_name := "og" }

/-- A store holding one configured owning-group rule whose owning group has
no expanded grant rows yet (exactly the state the add-group-owner endpoint
leaves behind, promising "refresh will expand members"). -/
def dbC7 : DB :=
  { users := [], groups := [grpG7], owners := [], ownerGroups := [ruleOG7],
    nextId := 2 }

/-- An upstream on which the owning group has one member. -/
def fetchDave : String → String → List (String × Option String) :=
  fun _ _ => [("dave", none)]

/-- Claim C7 (code side): the reconcile-all run enumerates triples from the
expanded `dg_group_owner` grant rows, not from the `dg_group_owner_group`
rules table.  On a store with a configured rule but no expanded rows, the
enumeration is empty and the full refresh pipeline (backfill, then
reconcile-all) performs no write at all — the rule is never expanded even
though its owning group has a member upstream. -/
theorem claim_C7_rule_never_reconciled :
    dbC7.ownerGroups ≠ []
    ∧ enumTriples dbC7 = []
    ∧ backfill_group_owner_rules dbC7 = dbC7
    ∧ sync_all_group_owners (backfill_group_owner_rules dbC7) fetchDave
        = (dbC7, 0, 0) := by
  decide

/-- A Jira upstream that is down: every page request returns HTTP 503. -/
def jiraDown : Nat → JiraPage :=
  fun _ => { status := 503, values := [], isLast := false }

/-- The member fetch as wired by `refresh.main` while Jira is down: the
pagination helper catches the failure internally and hands back the partial
(empty) member list. -/
def fetchJiraOutage : String → String → List (String × Option String) :=
  fun _ _ => (fetchJiraGroupMembers jiraDown 1).getD []

def userBobC4 : DgUser :=
  { id := 1, username := "bob", email := none,
    lower_username := "bob", lower_email := none }

def grpGC4 : DgManagedGroup :=
  { id := 0, app := "jira", group_name := "g", lower_group_name := "g" }

def rowBobC4 : DgGroupOwner :=
  { id := 2, managed_group_id := 0, user_id := 1,
    source_type := "GROUP_OWNER", via_group_name := some "og" }

def dbC4 : DB :=
  { users := [userBobC4], groups := [grpGC4], owners := [rowBobC4],
    ownerGroups := [], nextId := 3 }

/-- Counterexample to claim C4: when the upstream fetch for a triple fails
(HTTP 503 on the first page), the fetch helper returns the empty partial
list instead of raising, the triple is NOT skipped, and the reconcile-all
run deletes its existing `DERIVED` grant (one removal; the stored grants end
up empty) instead of leaving it unchanged. -/
theorem claim_C4_counterexample :
    fetchJiraGroupMembers jiraDown 1 = some []
    ∧ dbC4.owners ≠ []
    ∧ (sync_all_group_owners dbC4 fetchJiraOutage).1.owners = []
    ∧ (sync_all_group_owners dbC4 fetchJiraOutage).2.2 = 1 := by
  decide

/-- Reconciling a pair against the empty member list inserts nothing and
deletes every `DERIVED` row of the pair. -/
theorem syncCore_empty (db : DB) (gid : Nat) (via : String) :
    (syncCore db gid via []).added = 0
    ∧ ((syncCore db gid via []).db.owners.filter (isTripleRow gid via))
        = [] := by
  simp only [syncCore]
  have husers : (db.users.filter fun u => decide (u.id ∈
      ([] : List Nat).filter fun i => decide
        (i ∉ (db.owners.filter (isTripleRow gid via)).map
          DgGroupOwner.user_id))) = [] :=
    filter_none_eq fun u _ => by simp
  constructor
  · rw [husers]
    rfl
  · rw [husers]
    rw [List.filter_append]
    have hnew : ((assignRows gid via [] db.nextId).1.filter
        (isTripleRow gid via)) = [] := rfl
    rw [hnew, List.append_nil, List.filter_filter]
    apply filter_none_eq
    intro r hr
    cases htr : isTripleRow gid via r with
    | false => simp [htr]
    | true =>
        simp [htr]
        exact ⟨r, ⟨hr, htr⟩, rfl⟩

/-- The conclusion of claim C4 as amended, for one triple: reconciling
against the empty member list adds nothing and wipes every `DERIVED` grant
of the pair. -/
def C4Post (db : DB) (app dg og : String) : Prop :=
  (sync_group_owners_for_delegated_group db app dg og []).added = 0
  ∧ ((sync_group_owners_for_delegated_group db app dg og
      []).db.owners.filter
      (isTripleRow (get_or_create_managed_group db (strLower app) dg).1.id
        og)) = []

/-- Claim C4 as amended: a failing upstream page request makes the fetch
helper return `some []` — a normal value, so the run continues to the other
triples (in this embedding the fold is total), but the failed triple is NOT
skipped: it is reconciled against the empty list, which deletes all of its
existing `DERIVED` grants. -/
theorem claim_C4_amended (pages : Nat → JiraPage) (fuel : Nat)
    (hfail : (pages 0).status ≠ 200) (db : DB) (app dg og : String) :
    fetchJiraGroupMembers pages (fuel + 1) = some []
    ∧ C4Post db app dg og := by
  constructor
  · unfold fetchJiraGroupMembers fetchJiraLoop
    simp [hfail]
  · unfold C4Post
    have hb : buildDesired
        (get_or_create_managed_group db (strLower app) dg).2 [] []
        = ([], (get_or_create_managed_group db (strLower app) dg).2) := rfl
    rw [sync_unfold, hb]
    exact syncCore_empty _ _ og

def dgG : String := "g"

def ogOG : String := "og"

/-- Witness for the amended claim C4, at the concrete down-upstream and the
concrete store holding one derived grant. -/
theorem claim_C4_amended_witness :
    (jiraDown 0).status ≠ 200
    ∧ (fetchJiraGroupMembers jiraDown (0 + 1) = some []
        ∧ C4Post dbC4 appJira dgG ogOG) :=
  ⟨by decide, claim_C4_amended jiraDown 0 (by decide) dbC4 appJira dgG ogOG⟩

/-! ### Request-layer operations (`api/delgroups.py`, `api/deleteGroups.py`)

`Except ApiErr` models the raised `HTTPException`s (400 / 404 / 403 / 500).
SQLAlchemy's `one_or_none` raises on multiple matches; `oneOrNone` captures
that as an error value. -/

inductive ApiErr where
  | badRequest
  | notFound
  | forbidden
  | serverError
deriving DecidableEq

instance {ε α : Type} [DecidableEq ε] [DecidableEq α] :
    DecidableEq (Except ε α) := fun a b =>
  match a, b with
  | .error e, .error e' =>
      if h : e = e' then isTrue (by rw [h]) else isFalse (by simp [h])
  | .error _, .ok _ => isFalse (by simp)
  | .ok _, .error _ => isFalse (by simp)
  | .ok x, .ok y =>
      if h : x = y then isTrue (by rw [h]) else isFalse (by simp [h])

/-- `Query.one_or_none()`: `none` for an empty result, the row for a
singleton result, an error (`MultipleResultsFound`) otherwise. -/
def oneOrNone {α : Type} (p : α → Bool) (l : List α) :
    Except Unit (Option α) :=
  match l.filter p with
  | [] => .ok none
  | [a] => .ok (some a)
  | _ => .error ()

/-- `get_managed_group`: 404 if no delegated group matches
`(app.lower(), group_name.lower())`. -/
def get_managed_group (db : DB) (app gname : String) :
    Except ApiErr DgManagedGroup :=
  match oneOrNone (groupKeyMatch (strLower app) (strLower gname)) db.groups with
  | .error _ => .error .serverError
  | .ok none => .error .notFound
  | .ok (some g) => .ok g

/-- The requester lookup filter of `require_owner_by_email`: match on
`lower_email` only — there is no username fallback in the source. -/
def emailMatch (email : String) (u : DgUser) : Bool :=
  decide (u.lower_email = some (strLower email))

/-- `require_owner_by_email` (`api/delgroups.py` lines 76-107): resolve the
group (404), resolve the requester by lowercased email only (403 when
absent), then allow iff any `dg_group_owner` row of either source type
links the group and the requester (403 otherwise). -/
def require_owner_by_email (db : DB) (requesterEmail app gname : String) :
    Except ApiErr DgManagedGroup :=
  match get_managed_group db app gname with
  | .error e => .error e
  | .ok g =>
      match oneOrNone (emailMatch requesterEmail) db.users with
      | .error _ => .error .serverError
      | .ok none => .error .forbidden
      | .ok (some u) =>
          if db.owners.any fun r =>
              decide (r.managed_group_id = g.id ∧ r.user_id = u.id)
          then .ok g
          else .error .forbidden

/-- The rule-deletion filter of the remove-group-owner endpoint: match on
`(managed_group_id, lower_owning_group_name)`. -/
def ruleMatch (gid : Nat) (og : String) (r : DgGroupOwnerGroup) : Bool :=
  decide (r.managed_group_id = gid ∧
    r.lower_owning_group_name = strLower og)

/-- `remove_group_owner` (`api/delgroups.py` lines 298-364): after the owner
gate, delete all expanded `GROUP_OWNER` rows of the pair (matching
`via_group_name` case-sensitively) and the rule row (matching the lowercase
name), committing both deletions as one unit; returns the two row counts. -/
def remove_group_owner_api (db : DB) (requesterEmail app gname og : String) :
    Except ApiErr (DB × Nat × Nat) :=
  match require_owner_by_email db requesterEmail app gname with
  | .error e => .error e
  | .ok g =>
      .ok ({ db with
          owners := db.owners.filter fun r => !(isTripleRow g.id og r),
          ownerGroups := db.ownerGroups.filter fun r => !(ruleMatch g.id og r) },
        (db.ownerGroups.filter (ruleMatch g.id og)).length,
        (db.owners.filter (isTripleRow g.id og)).length)

/-- `delete_delegated_group` (`api/deleteGroups.py`): validate the app name
(400), resolve the group (404), then delete its grant rows, its rule rows
and the group row itself in one commit; returns the two deleted-row
counts. -/
def delete_delegated_group (db : DB) (app gname : String) :
    Except ApiErr (DB × Nat × Nat) :=
  let appL := strLower app
  if appL ≠ "jira" ∧ appL ≠ "confluence" then .error .badRequest
  else
    match oneOrNone (groupKeyMatch appL (strLower gname)) db.groups with
    | .error _ => .error .serverError
    | .ok none => .error .notFound
    | .ok (some g) =>
        .ok ({ db with
            owners := db.owners.filter fun r =>
              decide (r.managed_group_id ≠ g.id),
            ownerGroups := db.ownerGroups.filter fun r =>
              decide (r.managed_group_id ≠ g.id),
            groups := db.groups.filter fun g2 => decide (g2.id ≠ g.id) },
          (db.owners.filter fun r =>
            decide (r.managed_group_id = g.id)).length,
          (db.ownerGroups.filter fun r =>
            decide (r.managed_group_id = g.id)).length)

/-- Claim C5: removing an owning-group rule is all-or-nothing.  When the
owner gate passes, the endpoint returns exactly one post-state — produced by
a single commit, so no intermediate state is observable — in which no rule
row and no `DERIVED` grant row of the (group, owning-group-name) pair
remains, while every other grant row, every other rule row, and the user and
group tables are preserved verbatim. -/
theorem claim_C5_remove_rule_atomic (db : DB)
    (email app gname og : String) (g : DgManagedGroup)
    (hok : require_owner_by_email db email app gname = .ok g) :
    ∃ db' rr er, remove_group_owner_api db email app gname og
        = .ok (db', rr, er)
      ∧ (∀ r ∈ db'.ownerGroups, ruleMatch g.id og r = false)
      ∧ (∀ r ∈ db'.owners, isTripleRow g.id og r = false)
      ∧ (∀ r ∈ db.owners, isTripleRow g.id og r = false → r ∈ db'.owners)
      ∧ (∀ r ∈ db.ownerGroups, ruleMatch g.id og r = false →
          r ∈ db'.ownerGroups)
      ∧ db'.users = db.users ∧ db'.groups = db.groups
      ∧ rr = (db.ownerGroups.filter (ruleMatch g.id og)).length
      ∧ er = (db.owners.filter (isTripleRow g.id og)).length := by
  have heq : remove_group_owner_api db email app gname og
      = .ok ({ db with
            owners := db.owners.filter fun r => !(isTripleRow g.id og r),
            ownerGroups := db.ownerGroups.filter fun r =>
              !(ruleMatch g.id og r) },
          (db.ownerGroups.filter (ruleMatch g.id og)).length,
          (db.owners.filter (isTripleRow g.id og)).length) := by
    unfold remove_group_owner_api
    rw [hok]
  refine ⟨_, _, _, heq, ?_, ?_, ?_, ?_, rfl, rfl, rfl, rfl⟩
  · intro r hr
    have := (List.mem_filter.mp hr).2
    simpa using this
  · intro r hr
    have := (List.mem_filter.mp hr).2
    simpa using this
  · intro r hr hno
    exact List.mem_filter.mpr ⟨hr, by simp [hno]⟩
  · intro r hr hno
    exact List.mem_filter.mpr ⟨hr, by simp [hno]⟩

/-! Concrete store for the C5 witness: a direct owner `al`, a rule for
owning group `OG` and one expanded derived row. -/

def emailAl : String := "al@x"

def gn5 : String := "g5"

def ogNameC5 : String := "OG"

def userAl : DgUser :=
  { id := 0, username := "al", email := some "al@x",
    lower_username := "al", lower_email := some "al@x" }

def grpC5 : DgManagedGroup :=
  { id := 1, app := "jira", group_name := "g5", lower_group_name := "g5" }

def rowAlDirect : DgGroupOwner :=
  { id := 2, managed_group_id := 1, user_id := 0,
    source_type := "USER_OWNER", via_group_name := none }

def ruleC5 : DgGroupOwnerGroup :=
  { id := 3, managed_group_id := 1, owning_group_name := "OG",
    lower_owning_group_name := "og" }

def rowDerC5 : DgGroupOwner :=
  { id := 4, managed_group_id := 1, user_id := 0,
    source_type := "GROUP_OWNER", via_group_name := some "OG" }

def dbC5 : DB :=
  { users := [userAl], groups := [grpC5],
    owners := [rowAlDirect, rowDerC5], ownerGroups := [ruleC5], nextId := 5 }

/-- Witness for claim C5: the owner gate passes on the concrete store and
the theorem applies. -/
theorem claim_C5_witness :
    require_owner_by_email dbC5 emailAl appJira gn5 = .ok grpC5
    ∧ ∃ db' rr er, remove_group_owner_api dbC5 emailAl appJira gn5 ogNameC5
        = .ok (db', rr, er)
      ∧ (∀ r ∈ db'.ownerGroups, ruleMatch grpC5.id ogNameC5 r = false)
      ∧ (∀ r ∈ db'.owners, isTripleRow grpC5.id ogNameC5 r = false)
      ∧ (∀ r ∈ dbC5.owners, isTripleRow grpC5.id ogNameC5 r = false →
          r ∈ db'.owners)
      ∧ (∀ r ∈ dbC5.ownerGroups, ruleMatch grpC5.id ogNameC5 r = false →
          r ∈ db'.ownerGroups)
      ∧ db'.users = dbC5.users ∧ db'.groups = dbC5.groups
      ∧ rr = (dbC5.ownerGroups.filter (ruleMatch grpC5.id ogNameC5)).length
      ∧ er = (dbC5.owners.filter (isTripleRow grpC5.id ogNameC5)).length :=
  ⟨by decide,
    claim_C5_remove_rule_atomic dbC5 emailAl appJira gn5 ogNameC5 grpC5
      (by decide)⟩

/-! Concrete stores for claim C6: user `carol` is resolvable by username and
holds a grant on the checked group, but calls with a different email. -/

def unCarol : String := "carol"

def emailOther : String := "other@x"

def emailC : String := "c@x"

def gn6 : String := "g6"

def userCarol : DgUser :=
  { id := 0, username := "carol", email := some "c@x",
    lower_username := "carol", lower_email := some "c@x" }

def grpC6 : DgManagedGroup :=
  { id := 1, app := "jira", group_name := "g6", lower_group_name := "g6" }

def rowCarolDirect : DgGroupOwner :=
  { id := 2, managed_group_id := 1, user_id := 0,
    source_type := "USER_OWNER", via_group_name := none }

def dbC6 : DB :=
  { users := [userCarol], groups := [grpC6], owners := [rowCarolDirect],
    ownerGroups := [], nextId := 3 }

/-- Counterexample to claim C6 as stated: the authorization check has no
username fallback.  In `dbC6`, a Person row matches the caller's username
(`carol`) and holds a grant on the checked group, so the claimed
"email (preferred) or username" resolution would grant access — but the
code resolves by email only, finds no row for `other@x`, and denies. -/
theorem claim_C6_counterexample :
    (∃ u ∈ dbC6.users, u.lower_username = strLower unCarol ∧
        ∃ r ∈ dbC6.owners, r.managed_group_id = grpC6.id ∧ r.user_id = u.id)
    ∧ require_owner_by_email dbC6 emailOther appJira gn6
        = .error .forbidden := by
  decide

/-- Claim C6 as amended: the check resolves the caller by lowercased email
ONLY.  With the group resolved: no email match fails closed (403); a
uniquely matched Person with no grant row on this group is denied even if
they hold grants on other groups; a uniquely matched Person with at least
one grant row of either kind on this group is allowed. -/
theorem claim_C6_amended (db : DB) (email app gname : String)
    (g : DgManagedGroup) (hg : get_managed_group db app gname = .ok g) :
    (db.users.filter (emailMatch email) = [] →
        require_owner_by_email db email app gname = .error .forbidden)
    ∧ (∀ u : DgUser, db.users.filter (emailMatch email) = [u] →
        (∀ r ∈ db.owners, ¬(r.managed_group_id = g.id ∧ r.user_id = u.id)) →
        require_owner_by_email db email app gname = .error .forbidden)
    ∧ (∀ u : DgUser, db.users.filter (emailMatch email) = [u] →
        (∃ r ∈ db.owners, r.managed_group_id = g.id ∧ r.user_id = u.id) →
        require_owner_by_email db email app gname = .ok g) := by
  unfold require_owner_by_email
  rw [hg]
  refine ⟨?_, ?_, ?_⟩
  · intro hfe
    unfold oneOrNone
    rw [hfe]
  · intro u hfu hno
    have hone : oneOrNone (emailMatch email) db.users = .ok (some u) := by
      unfold oneOrNone
      rw [hfu]
    rw [hone]
    simp
    exact fun x hx hgid huid => hno x hx ⟨hgid, huid⟩
  · intro u hfu hyes
    have hone : oneOrNone (emailMatch email) db.users = .ok (some u) := by
      unfold oneOrNone
      rw [hfu]
    rw [hone]
    obtain ⟨r, hr, hφ⟩ := hyes
    simp
    exact ⟨r, hr, hφ⟩

/-! Witness store for the amended C6: `carol` resolves by email but her only
grant is on a different group `h6`; the check on `g6` denies. -/

def grpOtherC6 : DgManagedGroup :=
  { id := 3, app := "jira", group_name := "h6", lower_group_name := "h6" }

def rowCarolOther : DgGroupOwner :=
  { id := 4, managed_group_id := 3, user_id := 0,
    source_type := "USER_OWNER", via_group_name := none }

def dbC6W : DB :=
  { users := [userCarol], groups := [grpC6, grpOtherC6],
    owners := [rowCarolOther], ownerGroups := [], nextId := 5 }

/-- Witness for the amended claim C6: a Person resolved by email whose only
grants are on other groups is denied. -/
theorem claim_C6_amended_witness :
    require_owner_by_email dbC6W emailC appJira gn6 = .error .forbidden :=
  (claim_C6_amended dbC6W emailC appJira gn6 grpC6 (by decide)).2.1 userCarol
    (by decide) (by decide)

/-- The user returned by `get_or_create_user` carries exactly the normalized
key it was looked up (or created) with. -/
theorem gocu_key (db : DB) (un : String) (em : Option String) :
    (get_or_create_user db un em).1.lower_username
        = (normalizeIdentity un em).1
    ∧ (get_or_create_user db un em).1.lower_email
        = (normalizeIdentity un em).2 := by
  unfold get_or_create_user
  cases h : db.users.find? (userKeyMatch (normalizeIdentity un em).1
      (normalizeIdentity un em).2) with
  | some u =>
      simp only [h]
      have hp := List.find?_some h
      unfold userKeyMatch at hp
      simp only [decide_eq_true_eq] at hp
      exact hp
  | none => simp [h]

/-- Claim C9: `get_or_create_user` is duplicate-free and stable.  A second
call with the same pair returns the same row and leaves the store untouched;
a single call creates at most one row; and a later call with the same
username but a differently normalized email does not update or merge the
existing record — it returns a distinct Person while the first row stays in
the table. -/
theorem claim_C9_resolve_or_create_stable (db : DB) (un : String)
    (em em₂ : Option String) :
    (get_or_create_user (get_or_create_user db un em).2 un em
        = ((get_or_create_user db un em).1, (get_or_create_user db un em).2))
    ∧ ((get_or_create_user db un em).2.users = db.users
        ∨ (get_or_create_user db un em).2.users
            = db.users ++ [(get_or_create_user db un em).1])
    ∧ (normalizeIdentity un em₂ ≠ normalizeIdentity un em →
        (get_or_create_user (get_or_create_user db un em).2 un em₂).1
            ≠ (get_or_create_user db un em).1
        ∧ (get_or_create_user db un em).1
            ∈ (get_or_create_user (get_or_create_user db un em).2 un
                em₂).2.users) := by
  refine ⟨gocu_found (gocu_find db un em), ?_, ?_⟩
  · unfold get_or_create_user
    cases h : db.users.find? (userKeyMatch (normalizeIdentity un em).1
        (normalizeIdentity un em).2) with
    | some u => left; simp [h]
    | none => right; simp [h]
  · intro hne
    constructor
    · intro heq
      have h1 := gocu_key db un em
      have h2 := gocu_key (get_or_create_user db un em).2 un em₂
      apply hne
      have hemail : (normalizeIdentity un em₂).2
          = (normalizeIdentity un em).2 := by
        rw [← h2.2, heq, h1.2]
      exact Prod.ext rfl hemail
    · obtain ⟨t, ht⟩ := gocu_users_append (get_or_create_user db un em).2 un
        em₂
      rw [ht]
      exact List.mem_append.mpr (Or.inl (gocu_mem db un em))

def dbEmptyC9 : DB :=
  { users := [], groups := [], owners := [], ownerGroups := [], nextId := 0 }

def unAlice : String := "alice"

def emA : String := "a@x"

def emB : String := "b@x"

/-- Witness for claim C9: starting from an empty store, `alice` with email
`a@x` and then `alice` with email `b@x` yield two distinct Person rows, the
first of which survives unchanged. -/
theorem claim_C9_witness :
    normalizeIdentity unAlice (some emB)
        ≠ normalizeIdentity unAlice (some emA)
    ∧ ((get_or_create_user
          (get_or_create_user dbEmptyC9 unAlice (some emA)).2 unAlice
          (some emB)).1
        ≠ (get_or_create_user dbEmptyC9 unAlice (some emA)).1
      ∧ (get_or_create_user dbEmptyC9 unAlice (some emA)).1
          ∈ (get_or_create_user
              (get_or_create_user dbEmptyC9 unAlice (some emA)).2 unAlice
              (some emB)).2.users) :=
  ⟨by decide,
    (claim_C9_resolve_or_create_stable dbEmptyC9 unAlice (some emA)
      (some emB)).2.2 (by decide)⟩

/-! ### Scheduled catalog prune (`sched_script.py`, `add_data_to_table`)

`sched_script.py` maintains the per-app catalog tables
(`jiraGroups` / `confluenceGroups`: group name, member count, delegated
flag).  It imports only those `models` tables — it never touches
`dg_managed_group`, `dg_group_owner` or `dg_group_owner_group`. -/

structure CatRow where
  name : String
  user_count : Nat
  delegated : Bool
deriving DecidableEq

/-- `session.query(table).filter_by(name=...).first()` followed by
`setattr` on every column: overwrite the first row with that name. -/
def replaceFirst : List CatRow → CatRow → List CatRow
  | [], _ => []
  | x :: xs, r => if x.name = r.name then r :: xs else x :: replaceFirst xs r

/-- `add_data_to_table`: update or insert each dataframe row (membership
tested against the names present before the loop, exact case), then delete
every table row whose name is not among the dataframe names.  Returns the
new table plus the new / updated / deleted row counts. -/
def add_data_to_table (catalog : List CatRow) (df : List CatRow) :
    List CatRow × Nat × Nat × Nat :=
  let existingNames := catalog.map CatRow.name
  let upserted := df.foldl
    (fun (acc : List CatRow × Nat × Nat) r =>
      if r.name ∈ existingNames then
        (replaceFirst acc.1 r, acc.2.1 + 1, acc.2.2)
      else (acc.1 ++ [r], acc.2.1, acc.2.2 + 1))
    (catalog, 0, 0)
  let dfNames := df.map CatRow.name
  (upserted.1.filter fun row => decide (row.name ∈ dfNames),
    upserted.2.2,
    upserted.2.1,
    (upserted.1.filter fun row => decide (row.name ∉ dfNames)).length)

/-- The storage the scheduled job can reach: one per-app catalog table plus
the delegated-groups store (which `sched_script.py` does not import). -/
structure SystemState where
  catalog : List CatRow
  dg : DB
deriving DecidableEq

/-- The scheduled prune step: run `add_data_to_table` on the catalog with
the fresh listing.  The delegated-groups store is not an input of
`add_data_to_table` at all. -/
def pruneGroupsScheduled (s : SystemState) (df : List CatRow) :
    SystemState × Nat × Nat × Nat :=
  let r := add_data_to_table s.catalog df
  ({ s with catalog := r.1 }, r.2)

/-! Concrete store for claim C8: delegated group `g` with a grant and a
rule, whose name is absent from the fresh external listing. -/

def catRowG : CatRow := { name := "g", user_count := 3, delegated := true }

def grpG8 : DgManagedGroup :=
  { id := 0, app := "jira", group_name := "g", lower_group_name := "g" }

def userU8 : DgUser :=
  { id := 1, username := "u", email := none,
    lower_username := "u", lower_email := none }

def rowU8 : DgGroupOwner :=
  { id := 2, managed_group_id := 0, user_id := 1,
    source_type := "USER_OWNER", via_group_name := none }

def ruleR8 : DgGroupOwnerGroup :=
  { id := 3, managed_group_id := 0, owning_group_name := "og",
    lower_owning_group_name := "og" }

def dbG8 : DB :=
  { users := [userU8], groups := [grpG8], owners := [rowU8],
    ownerGroups := [ruleR8], nextId := 4 }

def sC8 : SystemState := { catalog := [catRowG], dg := dbG8 }

/-- Counterexample to claim C8 as stated: pruning against an empty live
listing removes group `g` from the catalog table, but the DelegatedGroup
row, its OwnershipGrant and its OwningGroupRule all survive — the scheduled
prune does not touch the delegated-groups store, so nothing cascades. -/
theorem claim_C8_counterexample :
    (pruneGroupsScheduled sC8 []).1.catalog = []
    ∧ (pruneGroupsScheduled sC8 []).1.dg = sC8.dg
    ∧ sC8.dg.groups ≠ [] ∧ sC8.dg.owners ≠ []
    ∧ sC8.dg.ownerGroups ≠ [] := by
  decide

/-- Cascading deletion of one delegated group as offered by the explicit
delete endpoint: the group row, every grant row and every rule row
referencing it are gone from the single returned post-state. -/
def C8DelPost (db : DB) (app gname : String) (g : DgManagedGroup) : Prop :=
  ∃ db' a b, delete_delegated_group db app gname = .ok (db', a, b)
    ∧ (∀ r ∈ db'.owners, r.managed_group_id ≠ g.id)
    ∧ (∀ r ∈ db'.ownerGroups, r.managed_group_id ≠ g.id)
    ∧ (∀ g2 ∈ db'.groups, g2.id ≠ g.id)
    ∧ db'.users = db.users

/-- Claim C8 as amended: the scheduled prune deletes exactly the catalog
rows whose (exact-case) name is absent from the fresh listing and leaves
the delegated-groups store untouched; cascading removal of a delegated
group together with its grants and rules happens only through the explicit
delete endpoint. -/
theorem claim_C8_amended :
    (∀ (s : SystemState) (df : List CatRow),
        (pruneGroupsScheduled s df).1.dg = s.dg
        ∧ ∀ row ∈ (pruneGroupsScheduled s df).1.catalog,
            row.name ∈ df.map CatRow.name)
    ∧ (∀ (db : DB) (app gname : String) (g : DgManagedGroup),
        (strLower app = "jira" ∨ strLower app = "confluence") →
        oneOrNone (groupKeyMatch (strLower app) (strLower gname)) db.groups
            = .ok (some g) →
        C8DelPost db app gname g) := by
  constructor
  · intro s df
    constructor
    · rfl
    · intro row hrow
      have := (List.mem_filter.mp hrow).2
      simpa using this
  · intro db app gname g happ hg
    unfold C8DelPost delete_delegated_group
    have hcond : ¬(strLower app ≠ "jira" ∧ strLower app ≠ "confluence") := by
      rcases happ with h | h <;> simp [h]
    rw [if_neg hcond, hg]
    refine ⟨_, _, _, rfl, ?_, ?_, ?_, rfl⟩
    · intro r hr
      have := (List.mem_filter.mp hr).2
      simpa using this
    · intro r hr
      have := (List.mem_filter.mp hr).2
      simpa using this
    · intro g2 hg2
      have := (List.mem_filter.mp hg2).2
      simpa using this

/-- Witness for the amended claim C8: the concrete pruned state plus a
successful cascading delete of group `g`. -/
theorem claim_C8_amended_witness :
    ((pruneGroupsScheduled sC8 []).1.dg = sC8.dg
      ∧ ∀ row ∈ (pruneGroupsScheduled sC8 []).1.catalog,
          row.name ∈ ([] : List CatRow).map CatRow.name)
    ∧ ((strLower appJira = "jira" ∨ strLower appJira = "confluence")
      ∧ C8DelPost dbG8 appJira dgG grpG8) :=
  ⟨claim_C8_amended.1 sC8 [],
    ⟨by decide,
      claim_C8_amended.2 dbG8 appJira dgG grpG8 (by decide) (by decide)⟩⟩

/-! ### Reconcile-all idempotence

The remainder of the development proves that the full reconcile-all run is
idempotent on schema-conformant stores.  `GroupsWF` states what the schema
and every creation path of `dg_managed_group` guarantee: `app` is stored
lowercased, `lower_group_name` is the lowercase of `group_name`, ids are
below the autoincrement counter and unique, and the `(app,
lower_group_name)` key is unique. -/

theorem charToLowerIdem (c : Char) : c.toLower.toLower = c.toLower := by
  unfold Char.toLower
  by_cases h : c.toNat ≥ 65 ∧ c.toNat ≤ 90
  · rw [if_pos h]
    have hval : (c.toNat + 32).isValidChar := Or.inl (by omega)
    have htn : (Char.ofNat (c.toNat + 32)).toNat = c.toNat + 32 := by
      rw [Char.ofNat, dif_pos hval]
      rfl
    rw [if_neg]
    rw [htn]
    omega
  · rw [if_neg h, if_neg h]

theorem strLower_idem (s : String) : strLower (strLower s) = strLower s := by
  unfold strLower
  simp only [List.map_map]
  congr 1
  exact List.map_congr_left fun c _ => charToLowerIdem c

theorem db_ext {a b : DB} (h1 : a.users = b.users) (h2 : a.groups = b.groups)
    (h3 : a.owners = b.owners) (h4 : a.ownerGroups = b.ownerGroups)
    (h5 : a.nextId = b.nextId) : a = b := by
  cases a
  cases b
  simp_all

theorem find?_eq_some_of_unique {α : Type} {l : List α} {p : α → Bool}
    {a : α} (ha : a ∈ l) (hpa : p a = true)
    (huniq : ∀ b ∈ l, p b = true → b = a) : l.find? p = some a := by
  induction l with
  | nil => simp at ha
  | cons x xs ih =>
      rw [List.find?]
      cases hx : p x with
      | true =>
          rw [huniq x (List.mem_cons_self _ _) hx]
      | false =>
          rcases List.mem_cons.mp ha with rfl | hxs
          · rw [hpa] at hx
            simp at hx
          · exact ih hxs fun b hb hpb =>
              huniq b (List.mem_cons_of_mem _ hb) hpb

theorem inj_of_map_nodup {α β : Type} {l : List α} {f : α → β}
    (h : (l.map f).Nodup) {a b : α} (ha : a ∈ l) (hb : b ∈ l)
    (hf : f a = f b) : a = b := by
  induction l with
  | nil => simp at ha
  | cons x xs ih =>
      rw [List.map_cons, List.nodup_cons] at h
      rcases List.mem_cons.mp ha with rfl | ha' <;>
        rcases List.mem_cons.mp hb with rfl | hb'
      · rfl
      · exact absurd (List.mem_map.mpr ⟨b, hb', hf.symm⟩) h.1
      · exact absurd (List.mem_map.mpr ⟨a, ha', hf⟩) h.1
      · exact ih h.2 ha' hb'

/-- What the schema (unique constraints) and every creation path guarantee
for `dg_managed_group` rows. -/
def GroupsWF (db : DB) : Prop :=
  (∀ g ∈ db.groups, strLower g.app = g.app
    ∧ strLower g.group_name = g.lower_group_name
    ∧ g.id < db.nextId)
  ∧ (db.groups.map fun g => (g.app, g.lower_group_name)).Nodup
  ∧ (db.groups.map DgManagedGroup.id).Nodup

/-- Schema conformance of the whole store. -/
def DBWF (db : DB) : Prop := UsersWF db ∧ GroupsWF db

instance : DecidablePred GroupsWF := fun db => by
  unfold GroupsWF
  infer_instance

instance : DecidablePred DBWF := fun db => by
  unfold DBWF
  infer_instance

/-- On a conformant store, resolving a stored group by its own
`(app, group_name)` — as the reconcile-all loop does, after pre-lowering the
app — returns that very group and leaves the store untouched. -/
theorem gocmg_self {db : DB} (hwf : GroupsWF db) {g : DgManagedGroup}
    (hg : g ∈ db.groups) :
    get_or_create_managed_group db (strLower g.app) g.group_name = (g, db) := by
  apply gocmg_found
  have h1 := (hwf.1 g hg).1
  have h2 := (hwf.1 g hg).2.1
  have hkey : groupKeyMatch (strLower (strLower g.app))
      (strLower g.group_name) g = true := by
    unfold groupKeyMatch
    rw [strLower_idem, h1, h2]
    simp
  apply find?_eq_some_of_unique hg hkey
  intro b hb hpb
  unfold groupKeyMatch at hpb
  rw [strLower_idem, h1, h2] at hpb
  simp only [decide_eq_true_eq] at hpb
  exact inj_of_map_nodup hwf.2.1 hb hg (by rw [hpb.1, hpb.2])

/-! Counter monotonicity and user-extension stability. -/

theorem assignRows_snd_ge (gid : Nat) (via : String) :
    ∀ (us : List DgUser) (n : Nat), n ≤ (assignRows gid via us n).2 := by
  intro us
  induction us with
  | nil => intro n; exact Nat.le_refl n
  | cons u rest ih =>
      intro n
      unfold assignRows
      exact Nat.le_trans (Nat.le_succ n) (ih (n + 1))

theorem gocu_nextId_le (db : DB) (un : String) (em : Option String) :
    db.nextId ≤ (get_or_create_user db un em).2.nextId := by
  unfold get_or_create_user
  cases h : db.users.find? (userKeyMatch (normalizeIdentity un em).1
      (normalizeIdentity un em).2) with
  | some u => simp [h]
  | none => simp [h]

theorem buildDesired_nextId_le (members : List (String × Option String)) :
    ∀ (db : DB) (acc : List Nat),
      db.nextId ≤ (buildDesired db members acc).2.nextId := by
  induction members with
  | nil => intro db acc; exact Nat.le_refl _
  | cons m rest ih =>
      intro db acc
      simp only [buildDesired]
      exact Nat.le_trans (gocu_nextId_le db m.1 m.2) (ih _ _)

theorem syncCore_nextId_ge (db : DB) (gid : Nat) (via : String)
    (desired : List Nat) :
    db.nextId ≤ (syncCore db gid via desired).db.nextId := by
  simp only [syncCore]
  exact assignRows_snd_ge gid via _ db.nextId

/-- If a `buildDesired` pass performed no writes, it resolves to the same
ids — still without writes — on any store whose user table extends the
original one. -/
theorem buildDesired_extend (members : List (String × Option String)) :
    ∀ (db : DB) (acc d : List Nat),
      buildDesired db members acc = (d, db) →
      ∀ (db₂ : DB) (t : List DgUser), db₂.users = db.users ++ t →
        buildDesired db₂ members acc = (d, db₂) := by
  induction members with
  | nil =>
      intro db acc d h db₂ t hus
      simp only [buildDesired] at h ⊢
      rw [(Prod.mk.injEq _ _ _ _).mp h |>.1]
  | cons m rest ih =>
      intro db acc d h db₂ t hus
      simp only [buildDesired] at h ⊢
      cases hf : db.users.find? (userKeyMatch (normalizeIdentity m.1 m.2).1
          (normalizeIdentity m.1 m.2).2) with
      | some u =>
          have hgo : get_or_create_user db m.1 m.2 = (u, db) := gocu_found hf
          rw [hgo] at h
          have hgo₂ : get_or_create_user db₂ m.1 m.2 = (u, db₂) :=
            gocu_found (by rw [hus]; exact find?_append_some hf)
          rw [hgo₂]
          exact ih db _ d h db₂ t hus
      | none =>
          exfalso
          have hgo : (get_or_create_user db m.1 m.2).2.users
              = db.users ++ [(get_or_create_user db m.1 m.2).1] := by
            simp only [get_or_create_user]
            rw [hf]
          obtain ⟨t₂, ht₂⟩ := buildDesired_users_append rest
            (get_or_create_user db m.1 m.2).2
            (if (get_or_create_user db m.1 m.2).1.id ∈ acc then acc
              else acc ++ [(get_or_create_user db m.1 m.2).1.id])
          have h2 := congrArg Prod.snd h
          simp only at h2
          have hlen : db.users = db.users
              ++ [(get_or_create_user db m.1 m.2).1] ++ t₂ := by
            conv_lhs => rw [← h2]
            rw [ht₂, hgo]
          have := congrArg List.length hlen
          simp [List.length_append] at this

/-- From a no-op sync of a stored group's pair, recover the two facts that
make it a no-op: the member resolution performs no writes, and the desired
ids coincide with the pair's row ids. -/
theorem sync_noop_inv {S : DB} {g : DgManagedGroup} {v : String}
    {ms : List (String × Option String)}
    (hres : get_or_create_managed_group S (strLower g.app) g.group_name
      = (g, S))
    (h : sync_group_owners_for_delegated_group S g.app g.group_name v ms
      = ⟨S, 0, 0⟩) :
    buildDesired S ms [] = ((buildDesired S ms []).1, S)
    ∧ ∀ x, x ∈ (buildDesired S ms []).1 ↔
        x ∈ (S.owners.filter (isTripleRow g.id v)).map DgGroupOwner.user_id := by
  have hs := sync_unfold S g.app g.group_name v ms
  rw [hres] at hs
  rw [h] at hs
  have hs' := hs.symm
  have husers : (buildDesired S ms []).2.users = S.users := by
    have := congrArg (fun r => r.db.users) hs'
    simpa [syncCore_users] using this
  have hnext : (buildDesired S ms []).2.nextId = S.nextId := by
    have hup := congrArg (fun r => r.db.nextId) hs'
    simp only at hup
    have h1 := syncCore_nextId_ge (buildDesired S ms []).2 g.id v
      (buildDesired S ms []).1
    have h2 := buildDesired_nextId_le ms S []
    omega
  have hB2 : (buildDesired S ms []).2 = S :=
    db_ext husers (by rw [buildDesired_groups]) (by rw [buildDesired_owners])
      (by rw [buildDesired_ownerGroups]) hnext
  refine ⟨Prod.ext rfl hB2, ?_⟩
  rw [hB2] at hs'
  have hadded := congrArg SyncResult.added hs'
  have hremoved := congrArg SyncResult.removed hs'
  simp only [syncCore] at hadded hremoved
  intro x
  constructor
  · intro hx
    by_contra hnotid
    obtain ⟨u, hu, hua⟩ := (by
      rcases buildDesired_sub ms S [] x hx with hacc | hex
      · simp at hacc
      · exact hex :
          ∃ u ∈ (buildDesired S ms []).2.users, u.id = x)
    rw [hB2] at hu
    have hux : u ∈ S.users.filter fun u => decide (u.id ∈
        (buildDesired S ms []).1.filter fun i =>
          decide (i ∉ (S.owners.filter (isTripleRow g.id v)).map
            DgGroupOwner.user_id)) := by
      refine List.mem_filter.mpr ⟨hu, ?_⟩
      simp only [decide_eq_true_eq]
      rw [hua]
      exact List.mem_filter.mpr ⟨hx, by simpa using hnotid⟩
    rw [List.length_eq_zero.mp hadded] at hux
    simp at hux
  · intro hx
    by_contra hnotd
    obtain ⟨r, hr, hra⟩ := List.mem_map.mp hx
    have hrx : r ∈ S.owners.filter fun r => isTripleRow g.id v r &&
        decide (r.user_id ∈ ((S.owners.filter (isTripleRow g.id v)).map
          DgGroupOwner.user_id).filter fun i =>
            decide (i ∉ (buildDesired S ms []).1)) := by
      refine List.mem_filter.mpr ⟨(List.mem_filter.mp hr).1, ?_⟩
      rw [(List.mem_filter.mp hr).2]
      simp only [Bool.true_and, decide_eq_true_eq]
      refine List.mem_filter.mpr ⟨by rw [hra]; exact hx, ?_⟩
      rw [hra]
      simpa using hnotd
    rw [List.length_eq_zero.mp hremoved] at hrx
    simp at hrx

/-- Reassembly: the resolution of a stored group, a write-free member
resolution, and desired-equals-existing make the sync a no-op. -/
theorem sync_noop_of {S : DB} {g : DgManagedGroup} {v : String}
    {ms : List (String × Option String)} {d : List Nat}
    (hres : get_or_create_managed_group S (strLower g.app) g.group_name
      = (g, S))
    (hbd : buildDesired S ms [] = (d, S))
    (hids : ∀ x, x ∈ d ↔
        x ∈ (S.owners.filter (isTripleRow g.id v)).map DgGroupOwner.user_id) :
    sync_group_owners_for_delegated_group S g.app g.group_name v ms
      = ⟨S, 0, 0⟩ := by
  rw [sync_unfold, hres, hbd]
  exact syncCore_noop S g.id v d hids

/-! Effects of one sync step on a conformant store, for a triple shaped like
the reconcile-all enumeration produces them: `(g.app, g.group_name, v)` for
a stored group `g`. -/

theorem usersWF_mono {db db₂ : DB} (h : UsersWF db)
    (hu : db₂.users = db.users) (hn : db.nextId ≤ db₂.nextId) :
    UsersWF db₂ := by
  obtain ⟨h1, h2⟩ := h
  constructor
  · rw [hu]; exact h1
  · rw [hu]; exact fun u hum => Nat.lt_of_lt_of_le (h2 u hum) hn

theorem groupsWF_mono {db db₂ : DB} (h : GroupsWF db)
    (hg : db₂.groups = db.groups) (hn : db.nextId ≤ db₂.nextId) :
    GroupsWF db₂ := by
  obtain ⟨h1, h2, h3⟩ := h
  refine ⟨?_, ?_, ?_⟩
  · rw [hg]
    exact fun g hgm => ⟨(h1 g hgm).1, (h1 g hgm).2.1,
      Nat.lt_of_lt_of_le (h1 g hgm).2.2 hn⟩
  · rw [hg]; exact h2
  · rw [hg]; exact h3

theorem sync_self_eq {S : DB} (hwf : DBWF S) {g : DgManagedGroup}
    (hg : g ∈ S.groups) (v : String) (ms : List (String × Option String)) :
    sync_group_owners_for_delegated_group S g.app g.group_name v ms
      = syncCore (buildDesired S ms []).2 g.id v (buildDesired S ms []).1 := by
  rw [sync_unfold, gocmg_self hwf.2 hg]

theorem sync_groups_self {S : DB} (hwf : DBWF S) {g : DgManagedGroup}
    (hg : g ∈ S.groups) (v : String) (ms : List (String × Option String)) :
    (sync_group_owners_for_delegated_group S g.app g.group_name v
      ms).db.groups = S.groups := by
  rw [sync_self_eq hwf hg, syncCore_groups, buildDesired_groups]

theorem sync_users_self {S : DB} (hwf : DBWF S) {g : DgManagedGroup}
    (hg : g ∈ S.groups) (v : String) (ms : List (String × Option String)) :
    ∃ t, (sync_group_owners_for_delegated_group S g.app g.group_name v
      ms).db.users = S.users ++ t := by
  rw [sync_self_eq hwf hg, syncCore_users]
  exact buildDesired_users_append ms S []

theorem sync_nextId_self {S : DB} (hwf : DBWF S) {g : DgManagedGroup}
    (hg : g ∈ S.groups) (v : String) (ms : List (String × Option String)) :
    S.nextId ≤ (sync_group_owners_for_delegated_group S g.app g.group_name v
      ms).db.nextId := by
  rw [sync_self_eq hwf hg]
  exact Nat.le_trans (buildDesired_nextId_le ms S [])
    (syncCore_nextId_ge _ g.id v _)

theorem sync_wf_self {S : DB} (hwf : DBWF S) {g : DgManagedGroup}
    (hg : g ∈ S.groups) (v : String) (ms : List (String × Option String)) :
    DBWF (sync_group_owners_for_delegated_group S g.app g.group_name v
      ms).db := by
  have hu : UsersWF (buildDesired S ms []).2 :=
    wf_buildDesired ms S [] hwf.1
  constructor
  · apply usersWF_mono hu
    · rw [sync_self_eq hwf hg, syncCore_users]
    · rw [sync_self_eq hwf hg]
      exact syncCore_nextId_ge _ g.id v _
  · apply groupsWF_mono hwf.2 (sync_groups_self hwf hg v ms)
      (sync_nextId_self hwf hg v ms)

theorem sync_rows_origin_self {S : DB} (hwf : DBWF S) {g : DgManagedGroup}
    (hg : g ∈ S.groups) (v : String) (ms : List (String × Option String)) :
    ∀ r ∈ (sync_group_owners_for_delegated_group S g.app g.group_name v
      ms).db.owners,
      r ∈ S.owners ∨ (r.managed_group_id = g.id
        ∧ r.source_type = "GROUP_OWNER" ∧ r.via_group_name = some v) := by
  intro r hr
  rw [sync_self_eq hwf hg] at hr
  have hO : (buildDesired S ms []).2.owners = S.owners := buildDesired_owners ms S []
  by_cases hmem : r ∈ (buildDesired S ms []).2.owners
  · left; rw [← hO]; exact hmem
  · right
    have := (syncCore_frame (buildDesired S ms []).2 g.id v
      (buildDesired S ms []).1).2 r hr hmem
    unfold isTripleRow at this
    simpa using this

theorem sync_frame_self {S : DB} (hwf : DBWF S) {g : DgManagedGroup}
    (hg : g ∈ S.groups) (v : String) (ms : List (String × Option String)) :
    ((sync_group_owners_for_delegated_group S g.app g.group_name v
        ms).db.owners.filter fun r => !(isTripleRow g.id v r))
      = S.owners.filter fun r => !(isTripleRow g.id v r) := by
  have h := (syncCore_frame (buildDesired S ms []).2 g.id v
    (buildDesired S ms []).1).1
  rw [buildDesired_owners] at h
  rw [sync_self_eq hwf hg]
  exact h

/-- Rows of a different (group id, owning-group name) pair are untouched by
deleting the complement filter: filtering for one pair factors through the
complement filter of another pair. -/
theorem filter_triple_sub {gid gid' : Nat} {via via' : String}
    (h : ¬(gid' = gid ∧ via' = via)) (l : List DgGroupOwner) :
    l.filter (isTripleRow gid' via')
      = (l.filter fun r => !(isTripleRow gid via r)).filter
          (isTripleRow gid' via') := by
  rw [List.filter_filter]
  apply List.filter_congr
  intro r _
  cases ht' : isTripleRow gid' via' r with
  | false => simp [ht']
  | true =>
      have hnt : isTripleRow gid via r = false := by
        cases ht : isTripleRow gid via r with
        | false => rfl
        | true =>
            exfalso
            unfold isTripleRow at ht ht'
            simp only [decide_eq_true_eq] at ht ht'
            apply h
            constructor
            · rw [← ht'.1, ht.1]
            · have := ht.2.2
              rw [ht'.2.2] at this
              exact (Option.some.injEq _ _).mp this.symm |>.symm
      simp [ht', hnt]

/-- Stability of a pair's no-op status under reconciling a different pair
(or re-reconciling the same one): if reconciling `(g', v')` is a no-op on
`S`, it is still a no-op after reconciling `(g, v)`. -/
theorem synced_stable {S : DB} (hwf : DBWF S)
    (fetch : String → String → List (String × Option String))
    {g g' : DgManagedGroup} (hg : g ∈ S.groups) (hg' : g' ∈ S.groups)
    {v v' : String}
    (hsync' : sync_group_owners_for_delegated_group S g'.app g'.group_name v'
      (fetch g'.app v') = ⟨S, 0, 0⟩) :
    sync_group_owners_for_delegated_group
        (sync_group_owners_for_delegated_group S g.app g.group_name v
          (fetch g.app v)).db
        g'.app g'.group_name v' (fetch g'.app v')
      = ⟨(sync_group_owners_for_delegated_group S g.app g.group_name v
          (fetch g.app v)).db, 0, 0⟩ := by
  by_cases hpair : g'.id = g.id ∧ v' = v
  · have hgg : g' = g := inj_of_map_nodup hwf.2.2.2 hg' hg hpair.1
    rw [hgg, hpair.2]
    exact sync_idempotent_single S g.app g.group_name v (fetch g.app v)
  · have hres' := gocmg_self hwf.2 hg'
    obtain ⟨hbd, hids⟩ := sync_noop_inv hres' hsync'
    have hwf' := sync_wf_self hwf hg v (fetch g.app v)
    have hgroups' := sync_groups_self hwf hg v (fetch g.app v)
    have hg'' : g' ∈ (sync_group_owners_for_delegated_group S g.app
        g.group_name v (fetch g.app v)).db.groups := by
      rw [hgroups']; exact hg'
    have hres'' := gocmg_self hwf'.2 hg''
    obtain ⟨t, ht⟩ := sync_users_self hwf hg v (fetch g.app v)
    have hbd' := buildDesired_extend (fetch g'.app v') S []
      (buildDesired S (fetch g'.app v') []).1 hbd _ t ht
    have hfilt : ((sync_group_owners_for_delegated_group S g.app g.group_name
        v (fetch g.app v)).db.owners.filter (isTripleRow g'.id v'))
        = S.owners.filter (isTripleRow g'.id v') := by
      rw [filter_triple_sub hpair, sync_frame_self hwf hg v (fetch g.app v),
        ← filter_triple_sub hpair]
    apply sync_noop_of hres'' hbd'
    intro x
    rw [hfilt]
    exact hids x

/-- A triple shaped as the reconcile-all enumeration produces them: app and
delegated-group name taken verbatim from a stored group row. -/
def TripleOfDB (db : DB) (t : String × String × String) : Prop :=
  ∃ g ∈ db.groups, t.1 = g.app ∧ t.2.1 = g.group_name

/-- A `DERIVED` row belonging to the pair a given triple reconciles. -/
def RowOfTriple (db : DB) (t : String × String × String)
    (r : DgGroupOwner) : Prop :=
  t.2.2 ≠ "" ∧ ∃ g ∈ db.groups, t.1 = g.app ∧ t.2.1 = g.group_name
    ∧ r.managed_group_id = g.id ∧ r.source_type = "GROUP_OWNER"
    ∧ r.via_group_name = some t.2.2

/-- Reconciling a triple on `S` is a no-op (when its via name is truthy). -/
def Synced (fetch : String → String → List (String × Option String))
    (S : DB) (t : String × String × String) : Prop :=
  t.2.2 ≠ "" → sync_group_owners_for_delegated_group S t.1 t.2.1 t.2.2
    (fetch t.1 t.2.2) = ⟨S, 0, 0⟩

/-- The reconcile-all fold invariant: starting from a conformant store with
the groups of `db₀`, processing enumeration-shaped triples keeps the store
conformant, never changes the group table, makes every processed triple a
no-op (and keeps previously processed ones no-ops), and only creates rows
belonging to processed triples. -/
theorem run_fold_inv
    (fetch : String → String → List (String × Option String)) (db₀ : DB) :
    ∀ (ts : List (String × String × String)) (S : DB) (a b : Nat)
      (done : List (String × String × String)),
      DBWF S →
      S.groups = db₀.groups →
      (∀ t ∈ ts, TripleOfDB db₀ t) →
      (∀ t ∈ done, TripleOfDB db₀ t) →
      (∀ t ∈ done, Synced fetch S t) →
      (∀ r ∈ S.owners, r ∈ db₀.owners ∨ ∃ t ∈ done, RowOfTriple db₀ t r) →
      DBWF (ts.foldl (syncAllStep fetch) (S, a, b)).1
      ∧ (ts.foldl (syncAllStep fetch) (S, a, b)).1.groups = db₀.groups
      ∧ (∀ t, (t ∈ done ∨ t ∈ ts) →
          Synced fetch (ts.foldl (syncAllStep fetch) (S, a, b)).1 t)
      ∧ (∀ r ∈ (ts.foldl (syncAllStep fetch) (S, a, b)).1.owners,
          r ∈ db₀.owners
          ∨ ∃ t, (t ∈ done ∨ t ∈ ts) ∧ RowOfTriple db₀ t r) := by
  intro ts
  induction ts with
  | nil =>
      intro S a b done hwf hgroups _ _ hdone hrows
      refine ⟨hwf, hgroups, ?_, ?_⟩
      · intro t ht
        rcases ht with h | h
        · exact hdone t h
        · simp at h
      · intro r hr
        rcases hrows r hr with h | ⟨t, htd, hrt⟩
        · exact Or.inl h
        · exact Or.inr ⟨t, Or.inl htd, hrt⟩
  | cons t ts ih =>
      intro S a b done hwf hgroups hshape hdshape hdone hrows
      simp only [List.foldl_cons]
      by_cases hv : t.2.2 = ""
      · have hstep : syncAllStep fetch (S, a, b) t = (S, a, b) := by
          unfold syncAllStep
          rw [if_pos hv]
        rw [hstep]
        have hres := ih S a b (done ++ [t]) hwf hgroups
          (fun t' h => hshape t' (List.mem_cons_of_mem _ h))
          (by
            intro t' h
            rcases List.mem_append.mp h with hd | hs
            · exact hdshape t' hd
            · simp only [List.mem_singleton] at hs
              subst hs
              exact hshape t' (List.mem_cons_self _ _))
          (by
            intro t' h
            rcases List.mem_append.mp h with hd | hs
            · exact hdone t' hd
            · simp only [List.mem_singleton] at hs
              subst hs
              exact fun hne => absurd hv hne)
          (by
            intro r hr
            rcases hrows r hr with h | ⟨t'', htd, hrt⟩
            · exact Or.inl h
            · exact Or.inr ⟨t'', List.mem_append_left _ htd, hrt⟩)
        obtain ⟨w1, w2, w3, w4⟩ := hres
        refine ⟨w1, w2, ?_, ?_⟩
        · intro t' ht'
          apply w3
          rcases ht' with hd | hc
          · exact Or.inl (List.mem_append_left _ hd)
          · rcases List.mem_cons.mp hc with rfl | hts
            · exact Or.inl (List.mem_append_right _ (by simp))
            · exact Or.inr hts
        · intro r hr
          rcases w4 r hr with h | ⟨t'', ht'', hrt⟩
          · exact Or.inl h
          · refine Or.inr ⟨t'', ?_, hrt⟩
            rcases ht'' with hda | hts
            · rcases List.mem_append.mp hda with hd | hs
              · exact Or.inl hd
              · simp only [List.mem_singleton] at hs
                subst hs
                exact Or.inr (List.mem_cons_self _ _)
            · exact Or.inr (List.mem_cons_of_mem _ hts)
      · obtain ⟨g, hgmem, h1, h2⟩ := hshape t (List.mem_cons_self _ _)
        have hgS : g ∈ S.groups := by rw [hgroups]; exact hgmem
        have harg : sync_group_owners_for_delegated_group S t.1 t.2.1 t.2.2
            (fetch t.1 t.2.2)
            = sync_group_owners_for_delegated_group S g.app g.group_name
              t.2.2 (fetch g.app t.2.2) := by
          rw [h1, h2]
        have hstep : syncAllStep fetch (S, a, b) t
            = ((sync_group_owners_for_delegated_group S t.1 t.2.1 t.2.2
                (fetch t.1 t.2.2)).db,
              a + (sync_group_owners_for_delegated_group S t.1 t.2.1 t.2.2
                (fetch t.1 t.2.2)).added,
              b + (sync_group_owners_for_delegated_group S t.1 t.2.1 t.2.2
                (fetch t.1 t.2.2)).removed) := by
          unfold syncAllStep
          rw [if_neg hv]
        rw [hstep]
        have hS'g : (sync_group_owners_for_delegated_group S t.1 t.2.1 t.2.2
            (fetch t.1 t.2.2)).db
            = (sync_group_owners_for_delegated_group S g.app g.group_name
              t.2.2 (fetch g.app t.2.2)).db := by
          rw [harg]
        have hwf' : DBWF (sync_group_owners_for_delegated_group S t.1 t.2.1
            t.2.2 (fetch t.1 t.2.2)).db := by
          rw [hS'g]
          exact sync_wf_self hwf hgS _ _
        have hgroups' : (sync_group_owners_for_delegated_group S t.1 t.2.1
            t.2.2 (fetch t.1 t.2.2)).db.groups = db₀.groups := by
          rw [hS'g, sync_groups_self hwf hgS]
          exact hgroups
        have hdone' : ∀ t' ∈ done ++ [t],
            Synced fetch (sync_group_owners_for_delegated_group S t.1 t.2.1
              t.2.2 (fetch t.1 t.2.2)).db t' := by
          intro t' ht'
          rcases List.mem_append.mp ht' with hd | hsing
          · intro hne'
            obtain ⟨g', hg'mem, h1', h2'⟩ := hdshape t' hd
            have hg'S : g' ∈ S.groups := by rw [hgroups]; exact hg'mem
            have hsy := hdone t' hd hne'
            rw [h1', h2'] at hsy ⊢
            rw [hS'g]
            exact synced_stable hwf fetch hgS hg'S hsy
          · simp only [List.mem_singleton] at hsing
            subst hsing
            intro hne'
            exact sync_idempotent_single S t'.1 t'.2.1 t'.2.2
              (fetch t'.1 t'.2.2)
        have hrows' : ∀ r ∈ (sync_group_owners_for_delegated_group S t.1
            t.2.1 t.2.2 (fetch t.1 t.2.2)).db.owners,
            r ∈ db₀.owners ∨ ∃ t'' ∈ done ++ [t], RowOfTriple db₀ t'' r := by
          intro r hr
          rw [hS'g] at hr
          rcases sync_rows_origin_self hwf hgS _ _ r hr with hold | hnew
          · rcases hrows r hold with h | ⟨t'', htd, hrt⟩
            · exact Or.inl h
            · exact Or.inr ⟨t'', List.mem_append_left _ htd, hrt⟩
          · exact Or.inr ⟨t, List.mem_append_right _ (by simp),
              hv, g, hgmem, h1, h2, hnew.1, hnew.2.1, hnew.2.2⟩
        have hres := ih
          (sync_group_owners_for_delegated_group S t.1 t.2.1 t.2.2
            (fetch t.1 t.2.2)).db
          (a + (sync_group_owners_for_delegated_group S t.1 t.2.1 t.2.2
            (fetch t.1 t.2.2)).added)
          (b + (sync_group_owners_for_delegated_group S t.1 t.2.1 t.2.2
            (fetch t.1 t.2.2)).removed)
          (done ++ [t]) hwf' hgroups'
          (fun t' h => hshape t' (List.mem_cons_of_mem _ h))
          (by
            intro t' h
            rcases List.mem_append.mp h with hd | hs
            · exact hdshape t' hd
            · simp only [List.mem_singleton] at hs
              subst hs
              exact ⟨g, hgmem, h1, h2⟩)
          hdone' hrows'
        obtain ⟨w1, w2, w3, w4⟩ := hres
        refine ⟨w1, w2, ?_, ?_⟩
        · intro t' ht'
          apply w3
          rcases ht' with hd | hc
          · exact Or.inl (List.mem_append_left _ hd)
          · rcases List.mem_cons.mp hc with rfl | hts
            · exact Or.inl (List.mem_append_right _ (by simp))
            · exact Or.inr hts
        · intro r hr
          rcases w4 r hr with h | ⟨t'', ht'', hrt⟩
          · exact Or.inl h
          · refine Or.inr ⟨t'', ?_, hrt⟩
            rcases ht'' with hda | hts
            · rcases List.mem_append.mp hda with hd | hs
              · exact Or.inl hd
              · simp only [List.mem_singleton] at hs
                subst hs
                exact Or.inr (List.mem_cons_self _ _)
            · exact Or.inr (List.mem_cons_of_mem _ hts)

theorem sync_all_unfold (db : DB)
    (fetch : String → String → List (String × Option String)) :
    sync_all_group_owners db fetch
      = (enumTriples db).foldl (syncAllStep fetch) (db, 0, 0) := rfl

/-- Membership characterization of the triple enumeration. -/
theorem mem_enumTriples {db : DB} {t : String × String × String} :
    t ∈ enumTriples db ↔ ∃ r ∈ db.owners, ∃ v, r.via_group_name = some v
      ∧ r.source_type = "GROUP_OWNER"
      ∧ ∃ g, db.groups.find?
          (fun g2 => decide (g2.id = r.managed_group_id)) = some g
        ∧ t = (g.app, g.group_name, v) := by
  unfold enumTriples
  rw [List.mem_dedup, List.mem_filterMap]
  constructor
  · rintro ⟨r, hr, hfr⟩
    cases hv : r.via_group_name with
    | none =>
        rw [hv] at hfr
        simp at hfr
    | some v =>
        rw [hv] at hfr
        by_cases hs : r.source_type = "GROUP_OWNER"
        · simp only [if_pos hs] at hfr
          obtain ⟨g, hg, ht⟩ := Option.map_eq_some'.mp hfr
          exact ⟨r, hr, v, hv, hs, g, hg, ht.symm⟩
        · simp only [if_neg hs] at hfr
          simp at hfr
  · rintro ⟨r, hr, v, hv, hs, g, hg, ht⟩
    refine ⟨r, hr, ?_⟩
    rw [hv]
    simp only [if_pos hs, hg, Option.map_some']
    rw [ht]

/-- Every enumerated triple takes its app and delegated-group name verbatim
from a stored group. -/
theorem enumTriples_shape (db : DB) :
    ∀ t ∈ enumTriples db, TripleOfDB db t := by
  intro t ht
  obtain ⟨r, _, v, _, _, g, hg, ht'⟩ := mem_enumTriples.mp ht
  exact ⟨g, List.mem_of_find?_eq_some hg, by rw [ht'], by rw [ht']⟩

/-- A fold over triples that are all no-ops does nothing. -/
theorem fold_noop (fetch : String → String → List (String × Option String)) :
    ∀ (ts : List (String × String × String)) (S : DB) (a b : Nat),
      (∀ t ∈ ts, Synced fetch S t) →
      ts.foldl (syncAllStep fetch) (S, a, b) = (S, a, b) := by
  intro ts
  induction ts with
  | nil => intro S a b _; rfl
  | cons t ts ih =>
      intro S a b h
      simp only [List.foldl_cons]
      by_cases hv : t.2.2 = ""
      · have hstep : syncAllStep fetch (S, a, b) t = (S, a, b) := by
          unfold syncAllStep
          rw [if_pos hv]
        rw [hstep]
        exact ih S a b fun t' h' => h t' (List.mem_cons_of_mem _ h')
      · have hsy := h t (List.mem_cons_self _ _) hv
        have hstep : syncAllStep fetch (S, a, b) t = (S, a, b) := by
          simp [syncAllStep, hv, hsy]
        rw [hstep]
        exact ih S a b fun t' h' => h t' (List.mem_cons_of_mem _ h')

/-- After one full reconcile-all run on a conformant store, every triple the
next run enumerates is already a no-op. -/
theorem run2_synced
    (fetch : String → String → List (String × Option String))
    (db₀ : DB) (hwf : DBWF db₀) :
    ∀ t' ∈ enumTriples (sync_all_group_owners db₀ fetch).1,
      Synced fetch (sync_all_group_owners db₀ fetch).1 t' := by
  obtain ⟨wWF, wgroups, wsynced, wrows⟩ :=
    run_fold_inv fetch db₀ (enumTriples db₀) db₀ 0 0 [] hwf rfl
      (enumTriples_shape db₀) (by simp) (by simp)
      (fun r hr => Or.inl hr)
  rw [sync_all_unfold]
  intro t' ht'
  obtain ⟨r, hr, v, hv, hs, g, hgfind, ht⟩ := mem_enumTriples.mp ht'
  have hgmem := List.mem_of_find?_eq_some hgfind
  have hgid : g.id = r.managed_group_id := by
    have := List.find?_some hgfind
    simpa using this
  rcases wrows r hr with hold | ⟨t'', ht''mem, hrt⟩
  · have ht'₀ : t' ∈ enumTriples db₀ := by
      rw [mem_enumTriples]
      refine ⟨r, hold, v, hv, hs, g, ?_, ht⟩
      rw [← wgroups]
      exact hgfind
    exact wsynced t' (Or.inr ht'₀)
  · obtain ⟨hne, g₂, hg₂mem, h1, h2, hmgid, hsrc, hvia⟩ := hrt
    have hvv : v = t''.2.2 := by
      rw [hv] at hvia
      exact (Option.some.injEq _ _).mp hvia
    have hg₂F : g₂ ∈ ((enumTriples db₀).foldl (syncAllStep fetch)
        (db₀, 0, 0)).1.groups := by
      rw [wgroups]
      exact hg₂mem
    have hgg : g = g₂ :=
      inj_of_map_nodup wWF.2.2.2 hgmem hg₂F (by rw [hgid, hmgid])
    have htt : t' = t'' := by
      rw [ht, hgg, hvv, ← h1, ← h2]
    rw [htt]
    exact wsynced t'' ht''mem

/-- Idempotence of the full reconcile-all run on a schema-conformant
store: the second run returns the first run's store with zero total
insertions and deletions. -/
theorem syncAll_idem (db : DB)
    (fetch : String → String → List (String × Option String))
    (hwf : DBWF db) :
    sync_all_group_owners (sync_all_group_owners db fetch).1 fetch
      = ((sync_all_group_owners db fetch).1, 0, 0) := by
  rw [sync_all_unfold (sync_all_group_owners db fetch).1 fetch]
  exact fold_noop fetch _ _ 0 0 (run2_synced fetch db hwf)

/-- Claim C1: reconciliation is idempotent.  First conjunct: a second
`sync_group_owners_for_delegated_group` with the same member list returns
the first run's store unchanged with zero insertions and deletions.  Second
conjunct: a second full reconcile-all run (`sync_all_group_owners`) against
an unchanged upstream returns the first run's store with zero total
insertions and deletions, for every store satisfying the schema invariants
`DBWF`. -/
theorem claim_C1_reconcile_idempotent :
    (∀ (db : DB) (app dg og : String)
        (members : List (String × Option String)),
        sync_group_owners_for_delegated_group
            (sync_group_owners_for_delegated_group db app dg og members).db
            app dg og members
          = ⟨(sync_group_owners_for_delegated_group db app dg og
              members).db, 0, 0⟩)
    ∧ (∀ (db : DB) (fetch : String → String → List (String × Option String)),
        DBWF db →
        sync_all_group_owners (sync_all_group_owners db fetch).1 fetch
          = ((sync_all_group_owners db fetch).1, 0, 0)) :=
  ⟨fun db app dg og members => sync_idempotent_single db app dg og members,
    fun db fetch hwf => syncAll_idem db fetch hwf⟩

/-- Witness for claim C1: the concrete one-pair store is conformant and a
second reconcile-all run on it performs zero writes. -/
theorem claim_C1_witness :
    DBWF dbC4
    ∧ sync_all_group_owners (sync_all_group_owners dbC4 fetchDave).1
        fetchDave = ((sync_all_group_owners dbC4 fetchDave).1, 0, 0) :=
  ⟨by decide, claim_C1_reconcile_idempotent.2 dbC4 fetchDave (by decide)⟩

end DelGroups
